import Mathlib

/-!
Verification development for the gbwtgraph path-cover constructor
(`src/path_cover.cpp`) and the minimizer enumeration (whose implementation
is external to the sources at hand; it is modelled from the specification
and from the expectations of the unit tests that are part of the sources).

Shallow embedding conventions:
* `handle_t` (an oriented node reference) is the `Handle` structure;
  its packed integer form is `2 * id + orientation bit`, matching the
  comparison order used by `std::vector<handle_t>::operator<`.
* A `HandleGraph` is a finite bidirected graph: the list `nodes` is the
  iteration order of `for_each_handle` (each node exactly once, per the
  libhandlegraph contract), and `edges` is a list of oriented edges; an
  edge `(a, b)` is also traversable as `(flip b, flip a)`.
* `std::sort` with an unspecified order on tied elements is determinized
  as a stable insertion sort (`sortBy`).
* Loops become fuel-indexed structural recursions; the fuel bounds used by
  the top-level functions are proved sufficient, so the embedded functions
  compute the same results as the C++ loops.
* `size_t` coverage counters are modelled as `Nat`; `worst_coverage()`
  (`std::numeric_limits<size_t>::max()`) is `2 ^ 64 - 1`.
-/

/-- An oriented node reference: `handle_t`. -/
structure Handle where
  id : Nat
  is_rev : Bool
deriving DecidableEq, Repr

instance : Inhabited Handle := ⟨⟨0, false⟩⟩

/-- `graph.flip(handle)`: the same node in the opposite orientation. -/
def Handle.flip (h : Handle) : Handle := ⟨h.id, !h.is_rev⟩

/-- The packed integer value of a handle, the order used by `operator<`
on `handle_t`. -/
def Handle.packed (h : Handle) : Nat := 2 * h.id + (if h.is_rev then 1 else 0)

/-- Strict comparison of handles by packed value. -/
def handleLt (a b : Handle) : Bool := a.packed < b.packed

/-- Lexicographic strict comparison of handle sequences
(`std::vector<handle_t>::operator<`). -/
def listLt : List Handle → List Handle → Bool
  | _, [] => false
  | [], _ :: _ => true
  | a :: as, b :: bs =>
    if handleLt a b then true
    else if handleLt b a then false
    else listLt as bs

/-- Non-strict lexicographic comparison. -/
def listLe (a b : List Handle) : Prop := listLt b a = false

/-- `reverse_complement` on handle sequences (src/path_cover.cpp:45-52):
reverse the sequence and flip every handle. -/
def reverse_complement (forward : List Handle) : List Handle :=
  forward.reverse.map Handle.flip

/-- `forward_window` (src/path_cover.cpp:54-64): take the last `k - 1`
handles of the path, append the successor, and return the
lexicographically smaller of the window and its reverse complement. -/
def forward_window (path : List Handle) (successor : Handle) (k : Nat) : List Handle :=
  let forward := path.drop (path.length - (k - 1)) ++ [successor]
  let reverse := reverse_complement forward
  if listLt forward reverse then forward else reverse

/-- `backward_window` (src/path_cover.cpp:66-76): the predecessor followed
by the first `k - 1` handles of the path, canonicalized the same way. -/
def backward_window (path : List Handle) (predecessor : Handle) (k : Nat) : List Handle :=
  let forward := predecessor :: path.take (k - 1)
  let reverse := reverse_complement forward
  if listLt forward reverse then forward else reverse

/-- A finite bidirected graph presented through the `HandleGraph`
interface.  `nodes` is the iteration order of `for_each_handle`; the two
propositional fields record the libhandlegraph contract (each node id
appears once, edges connect existing nodes). -/
structure HandleGraph where
  nodes : List Nat
  edges : List (Handle × Handle)
  nodes_nodup : nodes.Nodup
  edges_valid : ∀ e ∈ edges, e.1.id ∈ nodes ∧ e.2.id ∈ nodes

/-- `get_node_count()`. -/
def HandleGraph.node_count (g : HandleGraph) : Nat := g.nodes.length

/-- `min_node_id()`; 0 for an empty graph. -/
def HandleGraph.min_node_id (g : HandleGraph) : Nat :=
  match g.nodes with
  | [] => 0
  | x :: xs => xs.foldl Nat.min x

/-- `follow_edges(h, false, ...)`: handles reachable from `h` by one
forward traversal.  An edge `(a, b)` yields `b` from `a` and `flip a`
from `flip b`. -/
def successors (g : HandleGraph) (h : Handle) : List Handle :=
  (g.edges.filter (fun e => e.1 = h)).map (fun e => e.2) ++
  (g.edges.filter (fun e => e.2 = h.flip)).map (fun e => e.1.flip)

/-- `follow_edges(h, true, ...)`: handles from which `h` is reachable by
one forward traversal. -/
def predecessors (g : HandleGraph) (h : Handle) : List Handle :=
  (g.edges.filter (fun e => e.2 = h)).map (fun e => e.1) ++
  (g.edges.filter (fun e => e.1 = h.flip)).map (fun e => e.2.flip)

/-- Two node ids are adjacent when some edge joins them in either
direction (edge directions ignored). -/
def adjacentIds (g : HandleGraph) (v u : Nat) : Prop :=
  ∃ e ∈ g.edges, (e.1.id = v ∧ e.2.id = u) ∨ (e.2.id = v ∧ e.1.id = u)

instance (g : HandleGraph) (v u : Nat) : Decidable (adjacentIds g v u) := by
  unfold adjacentIds; infer_instance

/-- One DFS of `weakly_connected_components` (src/path_cover.cpp:29-39),
fuel-indexed.  The stack is a list with its head on top; pushing the
successor and predecessor lists in order means the popped order is their
reverse.  Returns the updated visited list and the component extended
with the newly visited ids, or `none` if the fuel runs out. -/
def wccDfs (g : HandleGraph) : Nat → List Handle → List Nat → List Nat →
    Option (List Nat × List Nat)
  | _, [], found, comp => some (found, comp)
  | 0, _ :: _, _, _ => none
  | fuel + 1, h :: rest, found, comp =>
    if h.id ∈ found then wccDfs g fuel rest found comp
    else
      wccDfs g fuel ((successors g h ++ predecessors g h).reverse ++ rest)
        (h.id :: found) (comp ++ [h.id])

/-- Fuel that will be proved sufficient for `wccDfs`: one step per stack
entry plus, for every unvisited node, one step and its pushed neighbours. -/
def wccFuel (g : HandleGraph) : Nat :=
  1 + g.nodes.length * (4 * g.edges.length + 1)

/-- The outer `for_each_handle` loop of `weakly_connected_components`
(src/path_cover.cpp:22-40). -/
def wccOuter (g : HandleGraph) : List Nat → List Nat → List (List Nat) →
    Option (List (List Nat))
  | [], _, comps => some comps
  | v :: vs, found, comps =>
    if v ∈ found then wccOuter g vs found comps
    else
      match wccDfs g (wccFuel g) [⟨v, false⟩] found [] with
      | none => none
      | some (found', comp) => wccOuter g vs found' (comps ++ [comp])

/-- `weakly_connected_components` (src/path_cover.cpp:15-43); the fuel is
proved sufficient, so the `[]` default is never produced. -/
def weakly_connected_components (g : HandleGraph) : List (List Nat) :=
  (wccOuter g g.nodes [] []).getD []

/-- Stable insertion into a sorted list: the new element goes after every
element strictly below it and before everything else. -/
def insertSorted (lt : α → α → Bool) (a : α) : List α → List α
  | [] => [a]
  | b :: bs => if lt b a then b :: insertSorted lt a bs else a :: b :: bs

/-- Stable sort by the strict comparator `lt`.  This is a
determinization of `std::sort` (whose order on tied elements is
unspecified); on tied elements it keeps the input order. -/
def sortBy (lt : α → α → Bool) : List α → List α
  | [] => []
  | a :: as => insertSorted lt a (sortBy lt as)

/-- `SimpleCoverage::no_coverage()` (src/path_cover.cpp:107). -/
def no_coverage : Nat := 0

/-- `SimpleCoverage::worst_coverage()` (src/path_cover.cpp:108):
`std::numeric_limits<size_t>::max()`. -/
def worst_coverage : Nat := 2 ^ 64 - 1

/-- `SimpleCoverage::give_priority` on plain counters
(src/path_cover.cpp:111-114). -/
def give_priority (a b : Nat) : Bool := a < b

/-- `SimpleCoverage::give_priority` on `(id, coverage)` pairs
(src/path_cover.cpp:117-120): compares coverage only. -/
def give_priority_node (a b : Nat × Nat) : Bool := a.2 < b.2

/-- Coverage of a node id in the coverage array, as read through
`SimpleCoverage::find_first` (`std::lower_bound` on the id-sorted array,
src/path_cover.cpp:89-95). -/
def ncovLookup (ncov : List (Nat × Nat)) (id : Nat) : Nat :=
  (((ncov.find? (fun p => p.1 == id)).getD (id, no_coverage))).2

/-- `Coverage::increase_coverage(*find_first(ncov, id))`: increment the
coverage of the entry for `id`. -/
def ncovIncr : List (Nat × Nat) → Nat → List (Nat × Nat)
  | [], _ => []
  | p :: ps, id => if p.1 = id then (p.1, p.2 + 1) :: ps else p :: ncovIncr ps id

/-- `path_coverage[window]`: `std::map::operator[]` read with default 0. -/
def pcovLookup (pcov : List (List Handle × Nat)) (w : List Handle) : Nat :=
  ((pcov.find? (fun q => q.1 == w)).getD (w, 0)).2

/-- `Coverage::increase_coverage(path_coverage[window])`: increment,
inserting the entry if absent. -/
def pcovIncr : List (List Handle × Nat) → List Handle → List (List Handle × Nat)
  | [], w => [(w, 1)]
  | q :: qs, w => if q.1 = w then (q.1, q.2 + 1) :: qs else q :: pcovIncr qs w

/-- Increment the coverage of the last element of the array:
`Coverage::increase_coverage(node_coverage.back())`
(src/path_cover.cpp:183). -/
def incrLast : List (Nat × Nat) → List (Nat × Nat)
  | [] => []
  | [p] => [(p.1, p.2 + 1)]
  | p :: q :: ps => p :: incrLast (q :: ps)

/-- The seeding step of one round (src/path_cover.cpp:176-187): sort the
coverage array by coverage, start the path with the forward handle of the
front entry, increment the coverage of the **back** entry, and re-sort the
array by id.  Returns the seeded path and the updated array. -/
def seedStep (ncov : List (Nat × Nat)) : List Handle × List (Nat × Nat) :=
  let sorted := sortBy give_priority_node ncov
  let path := [Handle.mk (sorted.headD (0, no_coverage)).1 false]
  let seeded := incrLast sorted
  (path, sortBy (fun a b => a.1 < b.1) seeded)

/-- `path.front()` on the deque (head of the list); the default is the
indeterminate value of an empty deque. -/
def frontH (l : List Handle) : Handle := l.headD default

/-- `path.back()` on the deque (last element of the list). -/
def backH (l : List Handle) : Handle := l.getLastD default

/-- The mutable state of the path extension loop
(src/path_cover.cpp:192-264).  `path` is the deque (head = front),
`fs`/`bs` are `forward_success`/`backward_success`. -/
structure ExtState where
  path : List Handle
  ncov : List (Nat × Nat)
  pcov : List (List Handle × Nat)
  fs : Bool
  bs : Bool
deriving Repr

/-- The candidate scan of the extension loop: fold `update_best` over the
enumerated neighbours (src/path_cover.cpp:197-204).  `best` starts
unset (the C++ variable is uninitialized) with `best_coverage` at
`worst_coverage`. -/
def scanBest (score : Handle → Nat) : List Handle → Nat → Option Handle → Option Handle
  | [], _, best => best
  | c :: cs, bc, best =>
    if give_priority (score c) bc then scanBest score cs (score c) (some c)
    else scanBest score cs bc best

/-- Candidate score for a forward extension (src/path_cover.cpp:212-221):
node coverage while the path is shorter than `k - 1`, window coverage
afterwards. -/
def forwardScore (k : Nat) (st : ExtState) (next : Handle) : Nat :=
  if st.path.length + 1 < k then ncovLookup st.ncov next.id
  else pcovLookup st.pcov (forward_window st.path next k)

/-- Candidate score for a backward extension (src/path_cover.cpp:242-251). -/
def backwardScore (k : Nat) (st : ExtState) (prev : Handle) : Nat :=
  if st.path.length + 1 < k then ncovLookup st.ncov prev.id
  else pcovLookup st.pcov (backward_window st.path prev k)

/-- The backward half of the extension loop body
(src/path_cover.cpp:236-263). -/
def extendBackward (g : HandleGraph) (k : Nat) (st : ExtState) : ExtState × Bool :=
  let preds := predecessors g (frontH st.path)
  let bs := !preds.isEmpty
  if bs then
    let best := (scanBest (backwardScore k st) preds worst_coverage none).getD default
    let pcov1 :=
      if st.path.length + 1 ≥ k then pcovIncr st.pcov (backward_window st.path best k)
      else st.pcov
    let ncov1 := ncovIncr st.ncov best.id
    (⟨best :: st.path, ncov1, pcov1, st.fs, true⟩, false)
  else (⟨st.path, st.ncov, st.pcov, st.fs, false⟩, false)

/-- One iteration of the extension loop body (src/path_cover.cpp:206-263).
Returns the new state and whether the `break` at src/path_cover.cpp:233
fired. -/
def extendBody (g : HandleGraph) (k : Nat) (st : ExtState) : ExtState × Bool :=
  -- Extend forward.
  let succs := successors g (backH st.path)
  let fs := !succs.isEmpty
  if fs then
    let best := (scanBest (forwardScore k st) succs worst_coverage none).getD default
    let pcov1 :=
      if st.path.length + 1 ≥ k then pcovIncr st.pcov (forward_window st.path best k)
      else st.pcov
    let ncov1 := ncovIncr st.ncov best.id
    let path1 := st.path ++ [best]
    let st1 : ExtState := ⟨path1, ncov1, pcov1, true, st.bs⟩
    if path1.length ≥ ncov1.length then (st1, true)
    else extendBackward g k st1
  else
    extendBackward g k ⟨st.path, st.ncov, st.pcov, false, st.bs⟩

/-- The while guard of the extension loop (src/path_cover.cpp:193). -/
def extendGuard (st : ExtState) : Bool :=
  (st.fs || st.bs) && decide (st.path.length < st.ncov.length)

/-- The extension loop (src/path_cover.cpp:192-264), fuel-indexed; the
fuel used by `runRound` is proved sufficient. -/
def extendLoop (g : HandleGraph) (k : Nat) : Nat → ExtState → ExtState
  | 0, st => st
  | fuel + 1, st =>
    if extendGuard st then
      let (st1, brk) := extendBody g k st
      if brk then st1 else extendLoop g k fuel st1
    else st

/-- The state after seeding and running the extension loop for one round
(src/path_cover.cpp:174-264). -/
def runRoundState (g : HandleGraph) (k : Nat) (ncov : List (Nat × Nat))
    (pcov : List (List Handle × Nat)) : ExtState :=
  let (path, ncov1) := seedStep ncov
  extendLoop g k (ncov1.length + 1) ⟨path, ncov1, pcov, true, true⟩

/-- `gbwt::Node::encode(id, is_reverse)`. -/
def nodeEncode (h : Handle) : Nat := 2 * h.id + (if h.is_rev then 1 else 0)

/-- One round: generate a path, and return its encoded buffer together
with the updated coverage state (src/path_cover.cpp:174-281). -/
def runRound (g : HandleGraph) (k : Nat) (ncov : List (Nat × Nat))
    (pcov : List (List Handle × Nat)) :
    List Nat × List (Nat × Nat) × List (List Handle × Nat) :=
  let st := runRoundState g k ncov pcov
  (st.path.map nodeEncode, st.ncov, st.pcov)

/-- The `n` rounds of one component (src/path_cover.cpp:174-281),
iterating over the remaining sample indices.  Returns the inserted
buffers and the path names `(sample, contig, phase, count)` in insertion
order. -/
def roundsLoop (g : HandleGraph) (k : Nat) (contig : Nat) :
    List Nat → List (Nat × Nat) → List (List Handle × Nat) →
    List (List Nat) × List (Nat × Nat × Nat × Nat)
  | [], _, _ => ([], [])
  | i :: rest, ncov, pcov =>
    let (buf, ncov1, pcov1) := runRound g k ncov pcov
    let (bufs, names) := roundsLoop g k contig rest ncov1 pcov1
    (buf :: bufs, (i, contig, 0, 0) :: names)

/-- Messages written to standard error by `generic_path_cover`. -/
inductive ErrMsg where
  | windowLength (k : Nat)
  | minimumNodeId (id : Nat)
  | progress (current total : Nat)
  | metadataSummary
deriving DecidableEq, Repr

/-- The state of the external GBWT builder observable through the claims:
inserted path buffers, their metadata names, and the index metadata. -/
structure GBWTResult where
  paths : List (List Nat)
  pathNames : List (Nat × Nat × Nat × Nat)
  hasMetadata : Bool
  samples : Nat
  haplotypes : Nat
  contigs : Nat
deriving DecidableEq, Repr

/-- `gbwt::GBWT()`: the empty index, with no metadata. -/
def emptyGBWT : GBWTResult := ⟨[], [], false, 0, 0, 0⟩

/-- The observable outcome of `generic_path_cover`: the returned GBWT and
the messages written to standard error, in order. -/
structure PCOutput where
  gbwt : GBWTResult
  stderrMsgs : List ErrMsg
deriving DecidableEq, Repr

/-- The per-component loop (src/path_cover.cpp:160-282): for each
component, build the fresh coverage array, run `n` rounds, and
concatenate the buffers, names and progress messages. -/
def compsLoop (g : HandleGraph) (n k : Nat) (show_progress : Bool) (total : Nat) :
    Nat → List (List Nat) →
    List (List Nat) × List (Nat × Nat × Nat × Nat) × List ErrMsg
  | _, [] => ([], [], [])
  | contig, comp :: rest =>
    let msgs : List ErrMsg := if show_progress then [.progress (contig + 1) total] else []
    let ncov := comp.map (fun id => (id, no_coverage))
    let (bufs, names) := roundsLoop g k contig (List.range n) ncov []
    let (bufs', names', msgs') := compsLoop g n k show_progress total (contig + 1) rest
    (bufs ++ bufs', names ++ names', msgs ++ msgs')

/-- Modelled from the spec: `PATH_COVER_MIN_K`, the smallest allowed
window length.  The constant is declared in `gbwtgraph/path_cover.h`,
which is not among the sources; spec section 4.G requires `k ≥ 2`. -/
def PATH_COVER_MIN_K : Nat := 2

/-- `generic_path_cover<SimpleCoverage>` (src/path_cover.cpp:125-294).
`batch_size` and `sample_interval` only tune the external builder and do
not affect the observable result. -/
def generic_path_cover (g : HandleGraph) (n k : Nat)
    (batch_size sample_interval : Nat) (show_progress : Bool) : PCOutput :=
  -- Sanity checks.
  if g.node_count = 0 ∨ n = 0 then ⟨emptyGBWT, []⟩
  else if k < PATH_COVER_MIN_K then ⟨emptyGBWT, [.windowLength k]⟩
  else if g.min_node_id < 1 then ⟨emptyGBWT, [.minimumNodeId g.min_node_id]⟩
  else
    let components := weakly_connected_components g
    let (bufs, names, msgs) := compsLoop g n k show_progress components.length 0 components
    { gbwt :=
        { paths := bufs
          pathNames := names
          hasMetadata := true
          samples := n
          haplotypes := n
          contigs := components.length }
      stderrMsgs := msgs ++ (if show_progress then [.metadataSummary] else []) }

/-- `path_cover_gbwt` (src/path_cover.cpp:298-302). -/
def path_cover_gbwt (g : HandleGraph) (n k : Nat)
    (batch_size sample_interval : Nat) (show_progress : Bool) : PCOutput :=
  generic_path_cover g n k batch_size sample_interval show_progress

/-- Modelled from the spec: the 2-bit base alphabet (`A=0, C=1, G=2,
T=3`, spec section 3).  The minimizer implementation
(`gbwtgraph/minimizer.h`) is not among the sources; sequences are
modelled over valid bases only. -/
abbrev Base := Fin 4

/-- Modelled from the spec: base complementation (`3 - b`, spec
section 4.A). -/
def complementBase (b : Base) : Base := ⟨3 - b.val, by omega⟩

/-- Modelled from the spec: reverse complement of a sequence. -/
def rcSeq (s : List Base) : List Base := s.reverse.map complementBase

/-- Modelled from the spec: pack a kmer into an integer, two bits per
base, first base in the highest bits (spec section 3). -/
def packKmer (l : List Base) : Nat := l.foldl (fun acc b => acc * 4 + b.val) 0

/-- Modelled from the spec: the fixed 64-bit Wang-style multiply/xor-shift
mixing function (spec section 4.B).  Its ordering on 3-mers reproduces the
order documented in the source test file (src/unnamed/part_000:92-95). -/
def wang_hash_64 (key0 : Nat) : Nat :=
  let m := 2 ^ 64
  let key := key0 % m
  let k1 := ((m - 1 - key) + (key <<< 21)) % m
  let k2 := k1 ^^^ (k1 >>> 24)
  let k3 := (k2 + (k2 <<< 3) + (k2 <<< 8)) % m
  let k4 := k3 ^^^ (k3 >>> 14)
  let k5 := (k4 + (k4 <<< 2) + (k4 <<< 4)) % m
  let k6 := k5 ^^^ (k5 >>> 28)
  (k6 + (k6 <<< 31)) % m

/-- A minimizer record `(key, offset, is_reverse)`; the stored hash is a
function of the key and is omitted. -/
structure MinRec where
  key : Nat
  offset : Nat
  is_rev : Bool
deriving DecidableEq, Repr

/-- Modelled from the spec: the kmer of length `k` starting at `i`. -/
def kmerAt (s : List Base) (k i : Nat) : List Base := (s.drop i).take k

/-- Modelled from the spec: the two oriented candidates contributed by the
kmer at offset `i` (spec sections 3 and 4.C together with scenarios
M1-M4 and the source tests, src/unnamed/part_000:121-136): the forward
kmer keyed at its first base, and its reverse complement keyed at its
last base with the orientation flag set. -/
def candidates (s : List Base) (k i : Nat) : List MinRec :=
  [⟨packKmer (kmerAt s k i), i, false⟩,
   ⟨packKmer (rcSeq (kmerAt s k i)), i + k - 1, true⟩]

/-- Modelled from the spec: all candidates of the window whose first kmer
starts at `j` (`w` consecutive kmers, spec section 4.C). -/
def windowCands (s : List Base) (k w j : Nat) : List MinRec :=
  (List.range w).flatMap (fun t => candidates s k (j + t))

/-- Leftmost candidate of minimum hash: the fold keeps a candidate only
when its hash strictly improves the best so far. -/
def pickBest : List MinRec → Nat → Option MinRec → Option MinRec
  | [], _, best => best
  | c :: cs, bh, best =>
    if wang_hash_64 c.key < bh then pickBest cs (wang_hash_64 c.key) (some c)
    else pickBest cs bh best

/-- Modelled from the spec: the minimizer of one window (spec section 4.C
step 4: the window minimum, at its leftmost occurrence). -/
def windowWinner (s : List Base) (k w j : Nat) : MinRec :=
  (pickBest (windowCands s k w j) (2 ^ 64) none).getD ⟨0, 0, false⟩

/-- Collapse consecutive equal records (spec section 4.C: a minimum that
persists over consecutive windows is emitted once). -/
def dedupConsec [DecidableEq α] : List α → List α
  | [] => []
  | [a] => [a]
  | a :: b :: rest =>
    if a = b then dedupConsec (b :: rest) else a :: dedupConsec (b :: rest)

/-- Modelled from the spec: `minimizers(begin, end)` — one record per full
window of `w` consecutive kmers of length `k`, deduplicated across
consecutive windows, in increasing window order (spec section 4.C). -/
def minimizersModel (s : List Base) (k w : Nat) : List MinRec :=
  dedupConsec ((List.range (s.length + 2 - k - w)).map (windowWinner s k w))

/-- Offset mirroring with orientation flip, for a source sequence of
length `L` (spec section 8, property 8). -/
def mirrorRec (L : Nat) (r : MinRec) : MinRec := ⟨r.key, L - 1 - r.offset, !r.is_rev⟩

/-- The test string `CGAATACAATACT` (src/unnamed/part_000:108). -/
def testStr : List Base := [1, 2, 0, 0, 3, 0, 1, 0, 0, 3, 0, 1, 3]

/-- The empty graph. -/
def Gempty : HandleGraph :=
  { nodes := [], edges := [], nodes_nodup := by decide, edges_valid := by decide }

/-- A two-node chain iterated in id order: nodes 1, 2 and the edge
`1+ -> 2+`. -/
def G12 : HandleGraph :=
  { nodes := [1, 2], edges := [(⟨1, false⟩, ⟨2, false⟩)],
    nodes_nodup := by decide, edges_valid := by decide }

/-- A two-node chain iterated in reverse id order: nodes 2, 1 and the
edge `2+ -> 1+`. -/
def G21 : HandleGraph :=
  { nodes := [2, 1], edges := [(⟨2, false⟩, ⟨1, false⟩)],
    nodes_nodup := by decide, edges_valid := by decide }

/-- A three-node component containing the two-cycle `1 -> 2 -> 1` and the
extra edge `3+ -> 1+`. -/
def G3cyc : HandleGraph :=
  { nodes := [1, 2, 3],
    edges := [(⟨1, false⟩, ⟨2, false⟩), (⟨2, false⟩, ⟨1, false⟩), (⟨3, false⟩, ⟨1, false⟩)],
    nodes_nodup := by decide, edges_valid := by decide }

/-- **C1.** The seed step picks the front (minimum-coverage) node of the
coverage-sorted array as the seed, but increments the coverage of the
**back** element (src/path_cover.cpp:182-183).  On the two-node component
of `G12`, with all coverages zero, the path is seeded with node 1's
forward handle while node 2's counter is incremented and node 1's counter
stays 0 — contradicting the claim that the seed node's own counter is
incremented. -/
theorem c1_seed_increments_back_not_seed :
    weakly_connected_components G12 = [[1, 2]] ∧
    seedStep [(1, no_coverage), (2, no_coverage)] =
      ([Handle.mk 1 false], [(1, 0), (2, 1)]) := by decide

/-- **C2 (counterexample).** On the empty graph with `n = 1` and window
length `k = 1 < PATH_COVER_MIN_K`, `path_cover_gbwt` returns the empty
GBWT **silently**: the node-count check returns before the window-length
check, so no message is written although `k < PATH_COVER_MIN_K` holds —
contradicting the claim that a single message is written. -/
theorem c2_counterexample :
    1 < PATH_COVER_MIN_K ∧
    path_cover_gbwt Gempty 1 1 0 0 false = ⟨emptyGBWT, []⟩ := by decide

/-- **C2 (amended).** If the graph is nonempty and `n ≥ 1`, and
`k < PATH_COVER_MIN_K` or the minimum node id is below 1, then
`path_cover_gbwt` writes exactly one message to standard error and
returns the empty GBWT with no metadata (src/path_cover.cpp:132-145). -/
theorem c2_invalid_parameters (g : HandleGraph) (n k bsz si : Nat) (sp : Bool)
    (hg : 0 < g.node_count) (hn : 0 < n)
    (hk : k < PATH_COVER_MIN_K ∨ g.min_node_id < 1) :
    (path_cover_gbwt g n k bsz si sp).gbwt = emptyGBWT ∧
    (path_cover_gbwt g n k bsz si sp).stderrMsgs.length = 1 := by
  unfold path_cover_gbwt generic_path_cover
  have h1 : ¬ (g.node_count = 0 ∨ n = 0) := by omega
  rw [if_neg h1]
  rcases hk with hk | hk
  · rw [if_pos hk]; exact ⟨rfl, rfl⟩
  · by_cases h2 : k < PATH_COVER_MIN_K
    · rw [if_pos h2]; exact ⟨rfl, rfl⟩
    · rw [if_neg h2, if_pos hk]; exact ⟨rfl, rfl⟩

/-- Witness for `c2_invalid_parameters` at `G12` with `k = 1`. -/
theorem c2_invalid_parameters_witness :
    (path_cover_gbwt G12 1 1 0 0 false).gbwt = emptyGBWT ∧
    (path_cover_gbwt G12 1 1 0 0 false).stderrMsgs.length = 1 :=
  c2_invalid_parameters G12 1 1 0 0 false (by decide) (by decide) (Or.inl (by decide))

/-- **C10.** With zero nodes or zero requested paths, `path_cover_gbwt`
returns the empty GBWT immediately and silently, for every `k`: the
window-length and minimum-node-id checks are never reached
(src/path_cover.cpp:133-134). -/
theorem c10_empty_inputs_silent (g : HandleGraph) (n k bsz si : Nat) (sp : Bool)
    (h : g.node_count = 0 ∨ n = 0) :
    path_cover_gbwt g n k bsz si sp = ⟨emptyGBWT, []⟩ := by
  unfold path_cover_gbwt generic_path_cover
  rw [if_pos h]

/-- Witness for `c10_empty_inputs_silent`: the empty graph with an
invalid window length `k = 0` and progress output requested still returns
silently. -/
theorem c10_empty_inputs_silent_witness :
    path_cover_gbwt Gempty 3 0 0 0 true = ⟨emptyGBWT, []⟩ :=
  c10_empty_inputs_silent Gempty 3 0 0 0 true (Or.inl rfl)

/-- **C5 (counterexample).** The coverage comparator
(src/path_cover.cpp:117-120) compares coverages only, so a coverage tie
is **not** broken by node id: on `G21` the single component is `[2, 1]`,
all coverages are zero, and the seed is node 2 — not the lowest id 1.
The inserted path `[4, 2]` (encoded `2+ 1+`) of the full pipeline starts
at node 2. -/
theorem c5_counterexample :
    weakly_connected_components G21 = [[2, 1]] ∧
    (seedStep [(2, no_coverage), (1, no_coverage)]).1 = [Handle.mk 2 false] ∧
    (path_cover_gbwt G21 1 2 0 0 false).gbwt.paths = [[4, 2]] := by decide

/-- **C4 (counterexample).** The extension loop's guard compares the path
**length** with the component size, and paths may revisit nodes: on
`G3cyc` (component `{1, 2, 3}` with the cycle `1 -> 2 -> 1`), the round
stops with the path `2+ 1+ 2+` of length 3 although node 3 was never
visited and both a forward and a backward extension were still possible —
contradicting the claim that the loop stops only when no extension is
possible or every node was visited. -/
theorem c4_counterexample :
    weakly_connected_components G3cyc = [[1, 3, 2]] ∧
    (runRoundState G3cyc 2 [(1, 0), (3, 0), (2, 0)] []).path.map Handle.id = [2, 1, 2] ∧
    extendGuard (runRoundState G3cyc 2 [(1, 0), (3, 0), (2, 0)] []) = false ∧
    successors G3cyc (backH (runRoundState G3cyc 2 [(1, 0), (3, 0), (2, 0)] []).path) ≠ [] ∧
    predecessors G3cyc (frontH (runRoundState G3cyc 2 [(1, 0), (3, 0), (2, 0)] []).path) ≠ [] ∧
    3 ∉ (runRoundState G3cyc 2 [(1, 0), (3, 0), (2, 0)] []).path.map Handle.id := by decide

/-- **C7.** With `k = 3`, `w = 2`, the minimizers of `CGAATACAATACT` are
exactly the seven records of the source test
(src/unnamed/part_000:121-136): `(TCG,2,rev)`, `(AAT,2,fwd)`,
`(TAT,5,rev)`, `(TGT,7,rev)`, `(AAT,7,fwd)`, `(TAT,10,rev)`,
`(ACT,10,fwd)`, in this order. -/
theorem c7_all_minimizers :
    minimizersModel testStr 3 2 =
      [⟨54, 2, true⟩, ⟨3, 2, false⟩, ⟨51, 5, true⟩, ⟨59, 7, true⟩,
       ⟨3, 7, false⟩, ⟨51, 10, true⟩, ⟨7, 10, false⟩] := by decide

/-- **C8 (counterexample).** Mirror symmetry of minimizer enumeration
fails when the minimal key occurs twice inside one window, because both
orientations emit the **leftmost** occurrence: on `AAAA` (`k = 3`,
`w = 2`) the forward enumeration emits `(AAA, 0, fwd)` while the reverse
complement `TTTT` emits `(AAA, 2, rev)`, not the mirrored `(AAA, 3, rev)`;
the two multisets of records differ. -/
theorem c8_counterexample :
    minimizersModel [0, 0, 0, 0] 3 2 = [⟨0, 0, false⟩] ∧
    minimizersModel (rcSeq [0, 0, 0, 0]) 3 2 = [⟨0, 2, true⟩] ∧
    ¬ List.Perm (minimizersModel (rcSeq [0, 0, 0, 0]) 3 2)
        ((minimizersModel [0, 0, 0, 0] 3 2).map (mirrorRec 4)) := by decide

/-- Inserting an element permutes the element onto the list. -/
theorem insertSorted_perm (lt : α → α → Bool) (a : α) :
    ∀ l : List α, List.Perm (insertSorted lt a l) (a :: l)
  | [] => List.Perm.refl _
  | b :: bs => by
    unfold insertSorted
    by_cases hlt : lt b a = true
    · simp only [hlt, if_true]
      exact ((insertSorted_perm lt a bs).cons b).trans (List.Perm.swap a b bs)
    · simp only [hlt, if_false]
      exact List.Perm.refl _

/-- `sortBy` permutes its input. -/
theorem sortBy_perm (lt : α → α → Bool) :
    ∀ l : List α, List.Perm (sortBy lt l) l
  | [] => List.Perm.refl _
  | a :: as => ((insertSorted_perm lt a (sortBy lt as)).trans
      ((sortBy_perm lt as).cons a))

/-- Insertion preserves sortedness for an asymmetric comparator whose
negation is transitive. -/
theorem insertSorted_pairwise (lt : α → α → Bool)
    (hA : ∀ a b, lt a b = true → lt b a = false)
    (hT : ∀ a b c, lt b a = false → lt c b = false → lt c a = false)
    (a : α) : ∀ l : List α, l.Pairwise (fun x y => lt y x = false) →
    (insertSorted lt a l).Pairwise (fun x y => lt y x = false)
  | [], _ => by simp [insertSorted]
  | b :: bs, hl => by
    unfold insertSorted
    rcases List.pairwise_cons.mp hl with ⟨hb, hbs⟩
    by_cases hlt : lt b a = true
    · simp only [hlt, if_true]
      refine List.pairwise_cons.mpr ⟨?_, insertSorted_pairwise lt hA hT a bs hbs⟩
      intro x hx
      rcases List.mem_cons.mp ((insertSorted_perm lt a bs).mem_iff.mp hx) with hx1 | hx1
      · rw [hx1]; exact hA b a hlt
      · exact hb x hx1
    · have hlt' : lt b a = false := by simpa using hlt
      simp only [hlt, if_false]
      refine List.pairwise_cons.mpr ⟨?_, hl⟩
      intro x hx
      rcases List.mem_cons.mp hx with hx1 | hx1
      · rw [hx1]; exact hlt'
      · exact hT a b x hlt' (hb x hx1)

/-- `sortBy` sorts, for an asymmetric comparator whose negation is
transitive. -/
theorem sortBy_pairwise (lt : α → α → Bool)
    (hA : ∀ a b, lt a b = true → lt b a = false)
    (hT : ∀ a b c, lt b a = false → lt c b = false → lt c a = false) :
    ∀ l : List α, (sortBy lt l).Pairwise (fun x y => lt y x = false)
  | [] => by simp [sortBy]
  | a :: as => insertSorted_pairwise lt hA hT a (sortBy lt as)
      (sortBy_pairwise lt hA hT as)

/-- The head of the coverage-sorted array is an entry of minimum
coverage. -/
theorem sortBy_cov_head_min (ncov : List (Nat × Nat)) (p : Nat × Nat)
    (rest : List (Nat × Nat)) (hs : sortBy give_priority_node ncov = p :: rest) :
    p ∈ ncov ∧ ∀ q ∈ ncov, p.2 ≤ q.2 := by
  have hperm := sortBy_perm give_priority_node ncov
  rw [hs] at hperm
  have hpair := sortBy_pairwise give_priority_node
    (by intro a b h; simp [give_priority_node] at h ⊢; omega)
    (by intro a b c h1 h2; simp [give_priority_node] at h1 h2 ⊢; omega) ncov
  rw [hs] at hpair
  rcases List.pairwise_cons.mp hpair with ⟨hmin, _⟩
  constructor
  · exact hperm.mem_iff.mp (List.mem_cons_self p rest)
  · intro q hq
    rcases List.mem_cons.mp (hperm.mem_iff.mpr hq) with hq1 | hq1
    · rw [hq1]
    · have := hmin q hq1
      simp [give_priority_node] at this
      omega

/-- **C5 (amended).** The seed of every round is the forward handle of a
node whose `node_coverage` is minimal in the component; the tie-break is
the position in the coverage array under the stable-sort determinization,
not the node id. -/
theorem c5_seed_min_coverage (ncov : List (Nat × Nat)) (h : ncov ≠ []) :
    ∃ p ∈ ncov, (seedStep ncov).1 = [Handle.mk p.1 false] ∧ ∀ q ∈ ncov, p.2 ≤ q.2 := by
  cases hs : sortBy give_priority_node ncov with
  | nil =>
    exact absurd (List.length_eq_zero.mp
      (by rw [← (sortBy_perm give_priority_node ncov).length_eq, hs, List.length_nil]))
      h
  | cons p rest =>
    obtain ⟨hp, hmin⟩ := sortBy_cov_head_min ncov p rest hs
    exact ⟨p, hp, by simp [seedStep, hs], hmin⟩

/-- Witness for `c5_seed_min_coverage` on a concrete coverage array. -/
theorem c5_seed_min_coverage_witness :
    ∃ p ∈ [((5 : Nat), (7 : Nat)), (3, 2)],
      (seedStep [(5, 7), (3, 2)]).1 = [Handle.mk p.1 false] ∧
      ∀ q ∈ [((5 : Nat), (7 : Nat)), (3, 2)], p.2 ≤ q.2 :=
  c5_seed_min_coverage [(5, 7), (3, 2)] (by decide)

/-- Flipping a handle twice is the identity. -/
theorem Handle.flip_flip (h : Handle) : h.flip.flip = h := by
  cases h; simp [Handle.flip]

/-- `reverse_complement` is an involution. -/
theorem reverse_complement_involution (w : List Handle) :
    reverse_complement (reverse_complement w) = w := by
  have hcomp : Handle.flip ∘ Handle.flip = id := funext fun h => Handle.flip_flip h
  simp [reverse_complement, List.map_reverse, List.map_map, hcomp]

/-- Handles with equal packed values are equal. -/
theorem Handle.packed_injEq (a b : Handle) (h : a.packed = b.packed) : a = b := by
  cases a with
  | mk ia ra =>
    cases b with
    | mk ib rb =>
      cases ra <;> cases rb <;> simp [Handle.packed] at h ⊢ <;> omega

/-- Lexicographic comparison is irreflexive. -/
theorem listLt_irrefl : ∀ a : List Handle, listLt a a = false
  | [] => rfl
  | x :: xs => by
    have hx : handleLt x x = false := by simp [handleLt]
    simp only [listLt, hx, Bool.false_eq_true, if_false]
    exact listLt_irrefl xs

/-- Lexicographic comparison is asymmetric. -/
theorem listLt_asymm : ∀ a b : List Handle, listLt a b = true → listLt b a = false
  | _, [] => by intro h; simp [listLt] at h
  | [], _ :: _ => by intro _; rfl
  | a :: as, b :: bs => by
    intro h
    simp only [listLt] at h ⊢
    by_cases h1 : handleLt a b = true
    · have h2 : handleLt b a = false := by
        simp [handleLt] at h1 ⊢; omega
      simp [h1, h2]
    · by_cases h2 : handleLt b a = true
      · simp [h1, h2] at h
      · have h1f : handleLt a b = false := by simpa using h1
        have h2f : handleLt b a = false := by simpa using h2
        simp only [h1f, h2f, Bool.false_eq_true, if_false] at h ⊢
        exact listLt_asymm as bs h

/-- Two lists neither of which lexicographically precedes the other are
equal. -/
theorem listLt_conn : ∀ a b : List Handle,
    listLt a b = false → listLt b a = false → a = b
  | [], [], _, _ => rfl
  | [], x :: xs, h1, _ => by simp [listLt] at h1
  | x :: xs, [], _, h2 => by simp [listLt] at h2
  | a :: as, b :: bs, h1, h2 => by
    simp only [listLt] at h1 h2
    by_cases hab : handleLt a b = true
    · simp [hab] at h1
    · by_cases hba : handleLt b a = true
      · simp [hba] at h2
      · have habf : handleLt a b = false := by simpa using hab
        have hbaf : handleLt b a = false := by simpa using hba
        simp only [habf, hbaf, Bool.false_eq_true, if_false] at h1 h2
        have heq : a = b := by
          apply Handle.packed_injEq
          simp [handleLt] at habf hbaf
          omega
        rw [heq, listLt_conn as bs h1 h2]

/-- The canonicalization shared by `forward_window` and `backward_window`
(src/path_cover.cpp:62-63 and 74-75): the lexicographically smaller of a
window and its reverse complement. -/
def canonicalWindow (w : List Handle) : List Handle :=
  if listLt w (reverse_complement w) then w else reverse_complement w

/-- The canonical window is one of the two orientations. -/
theorem canonicalWindow_choice (w : List Handle) :
    canonicalWindow w = w ∨ canonicalWindow w = reverse_complement w := by
  unfold canonicalWindow; split
  · exact Or.inl rfl
  · exact Or.inr rfl

/-- The canonical window is lexicographically at most the window itself. -/
theorem canonicalWindow_le_self (w : List Handle) : listLe (canonicalWindow w) w := by
  unfold canonicalWindow listLe
  split
  · exact listLt_irrefl w
  · next h => simpa using h

/-- The canonical window is lexicographically at most the reverse
complement. -/
theorem canonicalWindow_le_rc (w : List Handle) :
    listLe (canonicalWindow w) (reverse_complement w) := by
  unfold canonicalWindow listLe
  split
  · next h => exact listLt_asymm _ _ h
  · exact listLt_irrefl _

/-- Canonicalization is invariant under reverse complement. -/
theorem canonicalWindow_rc (w : List Handle) :
    canonicalWindow (reverse_complement w) = canonicalWindow w := by
  unfold canonicalWindow
  rw [reverse_complement_involution]
  by_cases h1 : listLt w (reverse_complement w) = true
  · have h2 : listLt (reverse_complement w) w = false := listLt_asymm _ _ h1
    simp [h1, h2]
  · have h1f : listLt w (reverse_complement w) = false := by simpa using h1
    by_cases h2 : listLt (reverse_complement w) w = true
    · simp [h1f, h2]
    · have h2f : listLt (reverse_complement w) w = false := by simpa using h2
      rw [if_neg (by simp [h2f]), if_neg (by simp [h1f])]
      exact listLt_conn w (reverse_complement w) h1f h2f

/-- **C6.** For a path long enough to supply `k - 1` handles, both window
functions build a window `w` of length `k` and return the
lexicographically smaller of `w` and `reverse_complement w` (comparison
by packed handle value); the canonical window of `w` equals the canonical
window of `reverse_complement w`, and `reverse_complement` is an
involution. -/
theorem c6_canonical_windows (path : List Handle) (s p : Handle) (k : Nat)
    (hk : 1 ≤ k) (hlen : k - 1 ≤ path.length) :
    (path.drop (path.length - (k - 1)) ++ [s]).length = k ∧
    (p :: path.take (k - 1)).length = k ∧
    forward_window path s k = canonicalWindow (path.drop (path.length - (k - 1)) ++ [s]) ∧
    backward_window path p k = canonicalWindow (p :: path.take (k - 1)) ∧
    (∀ w : List Handle,
      (canonicalWindow w = w ∨ canonicalWindow w = reverse_complement w) ∧
      listLe (canonicalWindow w) w ∧
      listLe (canonicalWindow w) (reverse_complement w) ∧
      canonicalWindow (reverse_complement w) = canonicalWindow w ∧
      reverse_complement (reverse_complement w) = w) := by
  refine ⟨?_, ?_, rfl, rfl, fun w =>
    ⟨canonicalWindow_choice w, canonicalWindow_le_self w, canonicalWindow_le_rc w,
     canonicalWindow_rc w, reverse_complement_involution w⟩⟩
  · simp only [List.length_append, List.length_drop, List.length_cons,
      List.length_nil]
    omega
  · simp only [List.length_cons, List.length_take]
    omega

/-- Witness for `c6_canonical_windows` at a concrete path and `k = 2`. -/
theorem c6_canonical_windows_witness :
    (([Handle.mk 1 false].drop ([Handle.mk 1 false].length - (2 - 1)) ++ [Handle.mk 2 false]).length = 2) ∧
    ((Handle.mk 3 false :: [Handle.mk 1 false].take (2 - 1)).length = 2) ∧
    forward_window [Handle.mk 1 false] (Handle.mk 2 false) 2 =
      canonicalWindow ([Handle.mk 1 false].drop ([Handle.mk 1 false].length - (2 - 1)) ++ [Handle.mk 2 false]) ∧
    backward_window [Handle.mk 1 false] (Handle.mk 3 false) 2 =
      canonicalWindow (Handle.mk 3 false :: [Handle.mk 1 false].take (2 - 1)) ∧
    (∀ w : List Handle,
      (canonicalWindow w = w ∨ canonicalWindow w = reverse_complement w) ∧
      listLe (canonicalWindow w) w ∧
      listLe (canonicalWindow w) (reverse_complement w) ∧
      canonicalWindow (reverse_complement w) = canonicalWindow w ∧
      reverse_complement (reverse_complement w) = w) :=
  c6_canonical_windows [Handle.mk 1 false] (Handle.mk 2 false) (Handle.mk 3 false) 2
    (by decide) (by decide)

/-- `sortBy` preserves length. -/
theorem sortBy_length (lt : α → α → Bool) (l : List α) :
    (sortBy lt l).length = l.length := (sortBy_perm lt l).length_eq

/-- `incrLast` preserves length. -/
theorem incrLast_length : ∀ l : List (Nat × Nat), (incrLast l).length = l.length
  | [] => rfl
  | [_] => rfl
  | p :: q :: ps => by
    show (p :: incrLast (q :: ps)).length = (p :: q :: ps).length
    simp [incrLast_length (q :: ps)]

/-- `ncovIncr` preserves length. -/
theorem ncovIncr_length : ∀ (l : List (Nat × Nat)) (id : Nat),
    (ncovIncr l id).length = l.length
  | [], _ => rfl
  | p :: ps, id => by
    simp only [ncovIncr]
    split
    · simp
    · simp [ncovIncr_length ps id]

/-- The coverage array leaves the seed step with its length unchanged. -/
theorem seedStep_ncov_length (ncov : List (Nat × Nat)) :
    (seedStep ncov).2.length = ncov.length := by
  simp [seedStep, sortBy_length, incrLast_length]

/-- The default value of `getLastD` is irrelevant on a nonempty list. -/
theorem getLastD_congr (l : List α) (d1 d2 : α) (h : l ≠ []) :
    l.getLastD d1 = l.getLastD d2 := by
  cases l with
  | nil => exact absurd rfl h
  | cons a l =>
    cases hq : (a :: l).getLast? with
    | none => simp at hq
    | some x => simp [List.getLastD_eq_getLast?, hq]

/-- Prepending preserves the last element of a nonempty list. -/
theorem getLastD_cons_of_ne_nil (a d : α) (l : List α) (h : l ≠ []) :
    (a :: l).getLastD d = l.getLastD d := by
  cases l with
  | nil => exact absurd rfl h
  | cons b l =>
    cases hq : (b :: l).getLast? with
    | none => simp at hq
    | some x =>
      simp [List.getLastD_eq_getLast?, List.getLast?_cons_cons, hq]

/-- Appending preserves the head of a nonempty list. -/
theorem headD_append_of_ne_nil (l l2 : List α) (d : α) (h : l ≠ []) :
    (l ++ l2).headD d = l.headD d := by
  cases l with
  | nil => exact absurd rfl h
  | cons a l => simp

/-- Prepending does not change the back of a nonempty deque. -/
theorem backH_cons_of_ne_nil (a : Handle) (l : List Handle) (h : l ≠ []) :
    backH (a :: l) = backH l := getLastD_cons_of_ne_nil a default l h

/-- Appending does not change the front of a nonempty deque. -/
theorem frontH_append_of_ne_nil (l l2 : List Handle) (h : l ≠ []) :
    frontH (l ++ l2) = frontH l := headD_append_of_ne_nil l l2 default h

/-- The success-flag invariant of the extension loop: a false flag means
the corresponding direction really had no neighbour at the current path
end. -/
def flagsInv (g : HandleGraph) (st : ExtState) : Prop :=
  (st.fs = false → successors g (backH st.path) = []) ∧
  (st.bs = false → predecessors g (frontH st.path) = [])

/-- Behaviour of the backward half of the loop body. -/
theorem extendBackward_spec (g : HandleGraph) (k : Nat) (st : ExtState)
    (hne : st.path ≠ []) :
    (extendBackward g k st).2 = false ∧
    (extendBackward g k st).1.path ≠ [] ∧
    (extendBackward g k st).1.ncov.length = st.ncov.length ∧
    (extendBackward g k st).1.fs = st.fs ∧
    backH (extendBackward g k st).1.path = backH st.path ∧
    ((extendBackward g k st).1.bs = true →
      (extendBackward g k st).1.path.length = st.path.length + 1) ∧
    ((extendBackward g k st).1.bs = false →
      (extendBackward g k st).1.path = st.path ∧
      predecessors g (frontH (extendBackward g k st).1.path) = []) := by
  simp only [extendBackward]
  by_cases hp : (predecessors g (frontH st.path)).isEmpty = true
  · rw [if_neg (by simp [hp])]
    exact ⟨rfl, hne, rfl, rfl, rfl,
      fun h => absurd h (by simp),
      fun _ => ⟨rfl, List.isEmpty_iff.mp hp⟩⟩
  · have hp' : (predecessors g (frontH st.path)).isEmpty = false := by
      simpa using hp
    rw [if_pos (by simp [hp'])]
    exact ⟨rfl, by simp, by simp [ncovIncr_length],
      rfl, backH_cons_of_ne_nil _ _ hne,
      fun _ => by simp,
      fun h => absurd h (by simp)⟩

/-- Behaviour of one loop-body iteration: the path stays nonempty, the
coverage array keeps its length, the flag invariant is re-established, a
`break` means the path length reached the component size, and a
successful non-breaking iteration grows the path. -/
theorem extendBody_spec (g : HandleGraph) (k : Nat) (st : ExtState)
    (hne : st.path ≠ []) (hinv : flagsInv g st) :
    (extendBody g k st).1.path ≠ [] ∧
    (extendBody g k st).1.ncov.length = st.ncov.length ∧
    flagsInv g (extendBody g k st).1 ∧
    ((extendBody g k st).2 = true →
      (extendBody g k st).1.ncov.length ≤ (extendBody g k st).1.path.length) ∧
    ((extendBody g k st).2 = false →
      ((extendBody g k st).1.fs || (extendBody g k st).1.bs) = true →
      st.path.length + 1 ≤ (extendBody g k st).1.path.length) := by
  simp only [extendBody]
  by_cases hs : (successors g (backH st.path)).isEmpty = true
  · rw [if_neg (by simp [hs])]
    obtain ⟨hb2, hbne, hblen, hbfs, hbback, hbs1, hbs0⟩ :=
      extendBackward_spec g k ⟨st.path, st.ncov, st.pcov, false, st.bs⟩ hne
    refine ⟨hbne, hblen, ⟨?_, ?_⟩, ?_, ?_⟩
    · intro _
      rw [hbback]
      exact List.isEmpty_iff.mp hs
    · intro hbsf
      exact (hbs0 hbsf).2
    · intro h
      rw [hb2] at h
      exact absurd h (by simp)
    · intro _ hor
      rw [hbfs] at hor
      simp only [Bool.false_or] at hor
      rw [hbs1 hor]
  · have hs' : (successors g (backH st.path)).isEmpty = false := by simpa using hs
    rw [if_pos (by simp [hs'])]
    generalize (scanBest (forwardScore k st) (successors g (backH st.path))
      worst_coverage none).getD default = b
    set A : ExtState :=
      ⟨st.path ++ [b], ncovIncr st.ncov b.id,
       (if st.path.length + 1 ≥ k then
          pcovIncr st.pcov (forward_window st.path b k)
        else st.pcov),
       true, st.bs⟩ with hA
    by_cases hbrk : (st.path ++ [b]).length ≥ (ncovIncr st.ncov b.id).length
    · rw [if_pos hbrk]
      refine ⟨by simp [hA], by simp [hA, ncovIncr_length], ⟨?_, ?_⟩, ?_, ?_⟩
      · intro h
        rw [hA] at h
        exact absurd h (by simp)
      · intro hbsf
        rw [hA] at hbsf ⊢
        rw [frontH_append_of_ne_nil st.path _ hne]
        exact hinv.2 hbsf
      · intro _
        rw [hA]
        exact hbrk
      · intro h
        exact absurd h (by simp)
    · rw [if_neg hbrk]
      obtain ⟨hb2, hbne, hblen, hbfs, hbback, hbs1, hbs0⟩ :=
        extendBackward_spec g k A (by simp [hA])
      refine ⟨hbne, by rw [hblen]; simp [hA, ncovIncr_length], ⟨?_, ?_⟩, ?_, ?_⟩
      · intro h
        rw [hbfs, hA] at h
        exact absurd h (by simp)
      · intro hbsf
        exact (hbs0 hbsf).2
      · intro h
        rw [hb2] at h
        exact absurd h (by simp)
      · intro _ _
        by_cases hbb : (extendBackward g k A).1.bs = true
        · rw [hbs1 hbb]
          simp [hA]
        · have hpath := (hbs0 (by simpa using hbb)).1
          rw [hpath]
          simp [hA]

/-- A loop whose guard already fails returns its state unchanged. -/
theorem extendLoop_of_guard_false (g : HandleGraph) (k : Nat) (fuel : Nat)
    (st : ExtState) (h : extendGuard st = false) : extendLoop g k fuel st = st := by
  cases fuel with
  | zero => rfl
  | succ fuel => simp [extendLoop, h]

/-- The extension loop preserves nonemptiness of the path, the coverage
array length, and the flag invariant. -/
theorem extendLoop_inv (g : HandleGraph) (k : Nat) :
    ∀ (fuel : Nat) (st : ExtState), st.path ≠ [] → flagsInv g st →
    (extendLoop g k fuel st).path ≠ [] ∧
    (extendLoop g k fuel st).ncov.length = st.ncov.length ∧
    flagsInv g (extendLoop g k fuel st)
  | 0, st, hne, hinv => ⟨hne, rfl, hinv⟩
  | fuel + 1, st, hne, hinv => by
    simp only [extendLoop]
    by_cases hg : extendGuard st = true
    · rw [if_pos hg]
      obtain ⟨hbne, hblen, hbinv, hbrk, _⟩ := extendBody_spec g k st hne hinv
      rcases hE : extendBody g k st with ⟨st1, brk⟩
      rw [hE] at hbne hblen hbinv hbrk
      simp only at hbne hblen hbinv hbrk
      cases brk with
      | true => exact ⟨hbne, hblen, hbinv⟩
      | false =>
        obtain ⟨h1, h2, h3⟩ := extendLoop_inv g k fuel st1 hbne hbinv
        exact ⟨h1, h2.trans hblen, h3⟩
    · rw [if_neg hg]
      exact ⟨hne, rfl, hinv⟩

/-- With fuel `component size + 1 - path length`, the extension loop
reaches a state whose guard is false: the C++ loop terminates. -/
theorem extendLoop_term (g : HandleGraph) (k : Nat) :
    ∀ (fuel : Nat) (st : ExtState), st.path ≠ [] → flagsInv g st →
    st.ncov.length + 1 ≤ fuel + st.path.length →
    extendGuard (extendLoop g k fuel st) = false
  | 0, st, _, _, hfuel => by
    have hlt : ¬ (st.path.length < st.ncov.length) := by omega
    simp [extendLoop, extendGuard, hlt]
  | fuel + 1, st, hne, hinv, hfuel => by
    simp only [extendLoop]
    by_cases hg : extendGuard st = true
    · rw [if_pos hg]
      obtain ⟨hbne, hblen, hbinv, hbrk, hprog⟩ := extendBody_spec g k st hne hinv
      rcases hE : extendBody g k st with ⟨st1, brk⟩
      rw [hE] at hbne hblen hbinv hbrk hprog
      simp only at hbne hblen hbinv hbrk hprog
      cases brk with
      | true =>
        have hge := hbrk rfl
        have hlt : ¬ (st1.path.length < st1.ncov.length) := by omega
        show extendGuard st1 = false
        simp [extendGuard, hlt]
      | false =>
        show extendGuard (extendLoop g k fuel st1) = false
        by_cases hfb : (st1.fs || st1.bs) = true
        · exact extendLoop_term g k fuel st1 hbne hbinv
            (by have := hprog rfl hfb; omega)
        · have hfb' : (st1.fs || st1.bs) = false := by simpa using hfb
          have hgf : extendGuard st1 = false := by simp [extendGuard, hfb']
          rw [extendLoop_of_guard_false g k fuel st1 hgf]
          exact hgf
    · rw [if_neg hg]
      simpa using hg

/-- The seeded path is the one-element deque holding the seed handle. -/
theorem seedStep_path_length (ncov : List (Nat × Nat)) :
    (seedStep ncov).1.length = 1 := by
  simp [seedStep]

/-- **C4 (amended).** For every graph, window length and coverage state,
the extension loop of one round terminates within the allotted
`component size + 1` iterations (the final guard is false), and at exit
either the path length has reached the size of the component's coverage
array, or the last handle of the path has no successors and the first
handle has no predecessors (neither direction can extend). -/
theorem c4_loop_exit_characterization (g : HandleGraph) (k : Nat)
    (ncov : List (Nat × Nat)) (pcov : List (List Handle × Nat)) :
    extendGuard (runRoundState g k ncov pcov) = false ∧
    (ncov.length ≤ (runRoundState g k ncov pcov).path.length ∨
      (successors g (backH (runRoundState g k ncov pcov).path) = [] ∧
       predecessors g (frontH (runRoundState g k ncov pcov).path) = [])) := by
  set st0 : ExtState := ⟨(seedStep ncov).1, (seedStep ncov).2, pcov, true, true⟩ with hst0
  have hdef : runRoundState g k ncov pcov =
      extendLoop g k ((seedStep ncov).2.length + 1) st0 := rfl
  have hne : st0.path ≠ [] := by
    rw [hst0]
    simp [seedStep]
  have hinv : flagsInv g st0 := by
    constructor
    · intro h; rw [hst0] at h; exact absurd h (by simp)
    · intro h; rw [hst0] at h; exact absurd h (by simp)
  have hfuel : st0.ncov.length + 1 ≤ ((seedStep ncov).2.length + 1) + st0.path.length := by
    rw [hst0]
    simp
  have hterm := extendLoop_term g k ((seedStep ncov).2.length + 1) st0 hne hinv hfuel
  obtain ⟨hFne, hFlen, hFinv⟩ :=
    extendLoop_inv g k ((seedStep ncov).2.length + 1) st0 hne hinv
  rw [hdef]
  refine ⟨hterm, ?_⟩
  by_cases hpl : (extendLoop g k ((seedStep ncov).2.length + 1) st0).path.length <
      (extendLoop g k ((seedStep ncov).2.length + 1) st0).ncov.length
  · have hflags : ((extendLoop g k ((seedStep ncov).2.length + 1) st0).fs ||
        (extendLoop g k ((seedStep ncov).2.length + 1) st0).bs) = false := by
      cases hOr : ((extendLoop g k ((seedStep ncov).2.length + 1) st0).fs ||
          (extendLoop g k ((seedStep ncov).2.length + 1) st0).bs) with
      | false => rfl
      | true =>
        rw [extendGuard, hOr] at hterm
        simp [hpl] at hterm
    have hfs : (extendLoop g k ((seedStep ncov).2.length + 1) st0).fs = false :=
      (Bool.or_eq_false_iff.mp hflags).1
    have hbs : (extendLoop g k ((seedStep ncov).2.length + 1) st0).bs = false :=
      (Bool.or_eq_false_iff.mp hflags).2
    exact Or.inr ⟨hFinv.1 hfs, hFinv.2 hbs⟩
  · refine Or.inl ?_
    have h1 : st0.ncov.length = ncov.length := by
      rw [hst0]
      exact seedStep_ncov_length ncov
    omega

/-- Each sample index of a component produces exactly one inserted buffer
and one path name `(i, contig, 0, 0)`. -/
theorem roundsLoop_spec (g : HandleGraph) (k contig : Nat) :
    ∀ (iList : List Nat) (ncov : List (Nat × Nat)) (pcov : List (List Handle × Nat)),
    (roundsLoop g k contig iList ncov pcov).1.length = iList.length ∧
    (roundsLoop g k contig iList ncov pcov).2 =
      iList.map (fun i => (i, contig, 0, 0))
  | [], _, _ => ⟨rfl, rfl⟩
  | i :: rest, ncov, pcov => by
    obtain ⟨h1, h2⟩ := roundsLoop_spec g k contig rest
      (runRound g k ncov pcov).2.1 (runRound g k ncov pcov).2.2
    simp only [roundsLoop]
    rcases hR : runRound g k ncov pcov with ⟨buf, ncov1, pcov1⟩
    rw [hR] at h1 h2
    simp only at h1 h2
    rcases hL : roundsLoop g k contig rest ncov1 pcov1 with ⟨bufs, names⟩
    rw [hL] at h1 h2
    simp only at h1 h2
    exact ⟨by simp [h1], by simp [h2]⟩

/-- Splitting off the first block of a shifted `flatMap` over a range. -/
theorem flatMap_range_shift {β : Type} (F : Nat → List β) :
    ∀ (m c : Nat),
    (List.range (m + 1)).flatMap (fun j => F (c + j)) =
      F c ++ (List.range m).flatMap (fun j => F (c + 1 + j))
  | 0, c => by
    simp [List.range_succ]
  | m + 1, c => by
    have harith : c + (m + 1) = c + 1 + m := by omega
    rw [List.range_succ, List.flatMap_append, flatMap_range_shift F m c,
        List.range_succ, List.flatMap_append]
    simp [harith]

/-- The per-component loop emits `n` buffers per component and the path
names `(i, contig + j, 0, 0)` grouped by component. -/
theorem compsLoop_spec (g : HandleGraph) (n k : Nat) (sp : Bool) (total : Nat) :
    ∀ (comps : List (List Nat)) (contig : Nat),
    (compsLoop g n k sp total contig comps).1.length = n * comps.length ∧
    (compsLoop g n k sp total contig comps).2.1 =
      (List.range comps.length).flatMap
        (fun j => (List.range n).map (fun i => (i, contig + j, 0, 0)))
  | [], _ => ⟨by simp [compsLoop], by simp [compsLoop]⟩
  | comp :: rest, contig => by
    obtain ⟨hr1, hr2⟩ := roundsLoop_spec g k contig (List.range n)
      (comp.map (fun id => (id, no_coverage))) []
    obtain ⟨hc1, hc2⟩ := compsLoop_spec g n k sp total rest (contig + 1)
    simp only [compsLoop]
    rcases hR : roundsLoop g k contig (List.range n)
      (comp.map (fun id => (id, no_coverage))) [] with ⟨bufs, names⟩
    rw [hR] at hr1 hr2
    simp only at hr1 hr2
    rcases hC : compsLoop g n k sp total (contig + 1) rest with ⟨bufs', names', msgs'⟩
    rw [hC] at hc1 hc2
    simp only at hc1 hc2
    constructor
    · simp only [List.length_append, hr1, hc1, List.length_cons,
        List.length_range]
      ring
    · simp only [hr2, hc2, List.length_cons]
      rw [flatMap_range_shift (fun c => (List.range n).map (fun i => (i, c, 0, 0)))
        rest.length contig]

/-- With valid parameters, `generic_path_cover` reaches the component
loop, and the result is assembled from `compsLoop`
(src/path_cover.cpp:146-293). -/
theorem generic_path_cover_valid (g : HandleGraph) (n k bsz si : Nat) (sp : Bool)
    (h1 : ¬ (g.node_count = 0 ∨ n = 0)) (h2 : ¬ k < PATH_COVER_MIN_K)
    (h3 : ¬ g.min_node_id < 1) :
    generic_path_cover g n k bsz si sp =
      { gbwt :=
          { paths := (compsLoop g n k sp (weakly_connected_components g).length 0
              (weakly_connected_components g)).1
            pathNames := (compsLoop g n k sp (weakly_connected_components g).length 0
              (weakly_connected_components g)).2.1
            hasMetadata := true
            samples := n
            haplotypes := n
            contigs := (weakly_connected_components g).length }
        stderrMsgs := (compsLoop g n k sp (weakly_connected_components g).length 0
            (weakly_connected_components g)).2.2 ++
          (if sp then [.metadataSummary] else []) } := by
  unfold generic_path_cover
  rw [if_neg h1, if_neg h2, if_neg h3]

/-- **C3.** With valid parameters (`n ≥ 1`, `k ≥ PATH_COVER_MIN_K`,
minimum node id ≥ 1), `generic_path_cover` inserts exactly
`n * |components|` paths, names them `(sample = i, contig = component
index, phase = 0, count = 0)` grouped by component, and sets the final
metadata to `samples = n`, `haplotypes = n`, `contigs = |components|`
(src/path_cover.cpp:160-293). -/
theorem c3_paths_and_metadata (g : HandleGraph) (n k bsz si : Nat) (sp : Bool)
    (hn : 1 ≤ n) (hk : PATH_COVER_MIN_K ≤ k) (hid : 1 ≤ g.min_node_id) :
    (generic_path_cover g n k bsz si sp).gbwt.paths.length =
      n * (weakly_connected_components g).length ∧
    (generic_path_cover g n k bsz si sp).gbwt.pathNames =
      (List.range (weakly_connected_components g).length).flatMap
        (fun contig => (List.range n).map (fun i => (i, contig, 0, 0))) ∧
    (generic_path_cover g n k bsz si sp).gbwt.hasMetadata = true ∧
    (generic_path_cover g n k bsz si sp).gbwt.samples = n ∧
    (generic_path_cover g n k bsz si sp).gbwt.haplotypes = n ∧
    (generic_path_cover g n k bsz si sp).gbwt.contigs =
      (weakly_connected_components g).length := by
  have hgn : ¬ g.node_count = 0 := by
    intro h0
    rw [HandleGraph.node_count, List.length_eq_zero] at h0
    simp [HandleGraph.min_node_id, h0] at hid
  rw [generic_path_cover_valid g n k bsz si sp
    (by rintro (h | h); exact hgn h; omega) (by omega) (by omega)]
  obtain ⟨hc1, hc2⟩ := compsLoop_spec g n k sp (weakly_connected_components g).length
    (weakly_connected_components g) 0
  exact ⟨hc1, by simpa using hc2, rfl, rfl, rfl, rfl⟩

/-- Witness for `c3_paths_and_metadata` on `G12` with `n = 2`, `k = 2`. -/
theorem c3_paths_and_metadata_witness :
    (generic_path_cover G12 2 2 0 0 false).gbwt.paths.length =
      2 * (weakly_connected_components G12).length ∧
    (generic_path_cover G12 2 2 0 0 false).gbwt.pathNames =
      (List.range (weakly_connected_components G12).length).flatMap
        (fun contig => (List.range 2).map (fun i => (i, contig, 0, 0))) ∧
    (generic_path_cover G12 2 2 0 0 false).gbwt.hasMetadata = true ∧
    (generic_path_cover G12 2 2 0 0 false).gbwt.samples = 2 ∧
    (generic_path_cover G12 2 2 0 0 false).gbwt.haplotypes = 2 ∧
    (generic_path_cover G12 2 2 0 0 false).gbwt.contigs =
      (weakly_connected_components G12).length :=
  c3_paths_and_metadata G12 2 2 0 0 false (by decide) (by decide) (by decide)

/-- The wang hash is a 64-bit value. -/
theorem wang_hash_64_lt (x : Nat) : wang_hash_64 x < 2 ^ 64 := by
  unfold wang_hash_64
  exact Nat.mod_lt _ (by norm_num)

/-- Full case analysis of the candidate fold: either nothing improved the
bound and the accumulator is returned, or the leftmost hash-minimal
improving candidate is returned. -/
theorem pickBest_cases : ∀ (l : List MinRec) (bh : Nat) (best : Option MinRec),
    (pickBest l bh best = best ∧ ∀ c ∈ l, ¬ wang_hash_64 c.key < bh) ∨
    (∃ u ∈ l, pickBest l bh best = some u ∧ wang_hash_64 u.key < bh ∧
      ∀ c ∈ l, ¬ wang_hash_64 c.key < wang_hash_64 u.key)
  | [], _, _ => Or.inl ⟨rfl, by simp⟩
  | c :: cs, bh, best => by
    simp only [pickBest]
    by_cases hc : wang_hash_64 c.key < bh
    · rw [if_pos hc]
      rcases pickBest_cases cs (wang_hash_64 c.key) (some c) with ⟨h1, h2⟩ | ⟨u, hu, h1, h2, h3⟩
      · refine Or.inr ⟨c, List.mem_cons_self c cs, h1, hc, ?_⟩
        intro d hd
        rcases List.mem_cons.mp hd with hd1 | hd1
        · rw [hd1]; omega
        · exact h2 d hd1
      · refine Or.inr ⟨u, List.mem_cons_of_mem c hu, h1, by omega, ?_⟩
        intro d hd
        rcases List.mem_cons.mp hd with hd1 | hd1
        · rw [hd1]; omega
        · exact h3 d hd1
    · rw [if_neg hc]
      rcases pickBest_cases cs bh best with ⟨h1, h2⟩ | ⟨u, hu, h1, h2, h3⟩
      · refine Or.inl ⟨h1, ?_⟩
        intro d hd
        rcases List.mem_cons.mp hd with hd1 | hd1
        · rw [hd1]; exact hc
        · exact h2 d hd1
      · refine Or.inr ⟨u, List.mem_cons_of_mem c hu, h1, h2, ?_⟩
        intro d hd
        rcases List.mem_cons.mp hd with hd1 | hd1
        · rw [hd1]; omega
        · exact h3 d hd1

/-- Once the unique minimum is held, no later candidate displaces it. -/
theorem pickBest_stay (u : MinRec) : ∀ l : List MinRec,
    (∀ c ∈ l, ¬ wang_hash_64 c.key < wang_hash_64 u.key) →
    pickBest l (wang_hash_64 u.key) (some u) = some u
  | [], _ => rfl
  | c :: cs, h => by
    simp only [pickBest]
    rw [if_neg (h c (List.mem_cons_self c cs))]
    exact pickBest_stay u cs (fun d hd => h d (List.mem_cons_of_mem c hd))

/-- If the hash minimum of the candidate list is attained by the single
record `u`, the fold returns `u` whatever the accumulator. -/
theorem pickBest_eq_of_unique : ∀ (l : List MinRec) (u : MinRec) (bh : Nat)
    (best : Option MinRec), u ∈ l → wang_hash_64 u.key < bh →
    (∀ c ∈ l, c ≠ u → wang_hash_64 u.key < wang_hash_64 c.key) →
    pickBest l bh best = some u
  | [], u, _, _, hu, _, _ => absurd hu (by simp)
  | c :: cs, u, bh, best, hu, hbh, hmin => by
    simp only [pickBest]
    by_cases hcu : c = u
    · rw [hcu, if_pos hbh]
      apply pickBest_stay
      intro d hd
      by_cases hdu : d = u
      · rw [hdu]; omega
      · have := hmin d (List.mem_cons_of_mem c hd) hdu; omega
    · have hucs : u ∈ cs := by
        rcases List.mem_cons.mp hu with h1 | h1
        · exact absurd h1.symm hcu
        · exact h1
      have hc := hmin c (List.mem_cons_self c cs) hcu
      by_cases hcb : wang_hash_64 c.key < bh
      · rw [if_pos hcb]
        exact pickBest_eq_of_unique cs u (wang_hash_64 c.key) (some c) hucs hc
          (fun d hd hdu => hmin d (List.mem_cons_of_mem c hd) hdu)
      · rw [if_neg hcb]
        exact pickBest_eq_of_unique cs u bh best hucs hbh
          (fun d hd hdu => hmin d (List.mem_cons_of_mem c hd) hdu)

/-- The window winner is a hash-minimal member of the candidate list. -/
theorem windowWinner_mem_min (s : List Base) (k w j : Nat)
    (hne : windowCands s k w j ≠ []) :
    windowWinner s k w j ∈ windowCands s k w j ∧
    ∀ c ∈ windowCands s k w j,
      wang_hash_64 (windowWinner s k w j).key ≤ wang_hash_64 c.key := by
  unfold windowWinner
  rcases pickBest_cases (windowCands s k w j) (2 ^ 64) none with ⟨_, h2⟩ | ⟨u, hu, h1, _, h3⟩
  · rcases List.exists_mem_of_ne_nil _ hne with ⟨c, hc⟩
    exact absurd (wang_hash_64_lt c.key) (h2 c hc)
  · rw [h1]
    simp only [Option.getD_some]
    exact ⟨hu, fun c hc => by have := h3 c hc; omega⟩

/-- When the hash minimum of a window is attained by a unique record, the
winner is that record. -/
theorem windowWinner_eq_of_unique (s : List Base) (k w j : Nat) (u : MinRec)
    (hu : u ∈ windowCands s k w j)
    (hmin : ∀ c ∈ windowCands s k w j,
      wang_hash_64 u.key ≤ wang_hash_64 c.key)
    (huniq : ∀ c ∈ windowCands s k w j,
      wang_hash_64 c.key = wang_hash_64 u.key → c = u) :
    windowWinner s k w j = u := by
  unfold windowWinner
  rw [pickBest_eq_of_unique (windowCands s k w j) u (2 ^ 64) none hu
    (wang_hash_64_lt u.key) ?_]
  · rfl
  · intro c hc hcu
    have h1 := hmin c hc
    rcases Nat.lt_or_ge (wang_hash_64 u.key) (wang_hash_64 c.key) with h | h
    · exact h
    · exact absurd (huniq c hc (by omega)) hcu

/-- A window of the reversed list is the reversed mirrored window. -/
theorem reverse_slice (s : List Base) (i k : Nat) (h : i + k ≤ s.length) :
    (s.reverse.drop i).take k = ((s.drop (s.length - k - i)).take k).reverse := by
  rw [List.drop_reverse, List.take_reverse]
  congr 1
  have h1 : (s.take (s.length - i)).length - k = s.length - k - i := by
    simp [List.length_take]
    omega
  rw [h1, List.drop_take]
  congr 1
  omega

/-- Complementing a base twice is the identity. -/
theorem complementBase_involution (b : Base) : complementBase (complementBase b) = b := by
  rcases b with ⟨v, hv⟩
  simp only [complementBase, Fin.mk.injEq]
  omega

/-- `rcSeq` is an involution. -/
theorem rcSeq_involution (l : List Base) : rcSeq (rcSeq l) = l := by
  have hcomp : complementBase ∘ complementBase = id := funext complementBase_involution
  simp [rcSeq, List.map_reverse, List.map_map, hcomp]

/-- `rcSeq` preserves length. -/
theorem rcSeq_length (s : List Base) : (rcSeq s).length = s.length := by
  simp [rcSeq]

/-- The kmer at offset `i` of the reverse complement is the reverse
complement of the mirrored kmer. -/
theorem kmerAt_rcSeq (s : List Base) (k i : Nat) (h : i + k ≤ s.length) :
    kmerAt (rcSeq s) k i = rcSeq (kmerAt s k (s.length - k - i)) := by
  show (((s.reverse.map complementBase).drop i).take k) =
    (((s.drop (s.length - k - i)).take k).reverse).map complementBase
  rw [← List.map_drop, ← List.map_take, reverse_slice s i k h]

/-- The two candidates of a kmer of the reverse complement are the
mirrored candidates of the mirrored kmer, swapped. -/
theorem candidates_rcSeq (s : List Base) (k i' : Nat) (hk : 1 ≤ k)
    (h : i' + k ≤ s.length) :
    candidates (rcSeq s) k i' =
      ((candidates s k (s.length - k - i')).map (mirrorRec s.length)).reverse := by
  have h1 : s.length - 1 - (s.length - k - i' + k - 1) = i' := by omega
  have h2 : s.length - 1 - (s.length - k - i') = i' + k - 1 := by omega
  simp only [candidates, List.map_cons, List.map_nil, List.reverse_cons,
    List.reverse_nil, List.nil_append, List.cons_append, mirrorRec,
    Bool.not_false, Bool.not_true]
  rw [kmerAt_rcSeq s k i' h, rcSeq_involution, h1, h2]

/-- Membership in a window of the reverse complement corresponds to
membership in the mirrored window. -/
theorem mem_windowCands_rcSeq (s : List Base) (k w j' : Nat) (hk : 1 ≤ k)
    (hw : 1 ≤ w) (hwin : j' + w + k ≤ s.length + 1) (c : MinRec) :
    c ∈ windowCands (rcSeq s) k w j' ↔
      ∃ d ∈ windowCands s k w (s.length + 1 - k - w - j'),
        c = mirrorRec s.length d := by
  unfold windowCands
  simp only [List.mem_flatMap, List.mem_range]
  constructor
  · rintro ⟨t, ht, hc⟩
    rw [candidates_rcSeq s k (j' + t) hk (by omega)] at hc
    rw [List.mem_reverse, List.mem_map] at hc
    rcases hc with ⟨d, hd, hcd⟩
    refine ⟨d, ⟨w - 1 - t, by omega, ?_⟩, hcd.symm⟩
    have harith : s.length - k - (j' + t) =
        s.length + 1 - k - w - j' + (w - 1 - t) := by omega
    rw [← harith]
    exact hd
  · rintro ⟨d, ⟨t2, ht2, hd⟩, hc⟩
    refine ⟨w - 1 - t2, by omega, ?_⟩
    rw [candidates_rcSeq s k (j' + (w - 1 - t2)) hk (by omega)]
    rw [List.mem_reverse, List.mem_map]
    refine ⟨d, ?_, hc.symm⟩
    have harith : s.length - k - (j' + (w - 1 - t2)) =
        s.length + 1 - k - w - j' + t2 := by omega
    rw [harith]
    exact hd

/-- Candidate offsets in a valid window are within the sequence. -/
theorem windowCands_offset_le (s : List Base) (k w j : Nat) (hk : 1 ≤ k)
    (hwin : j + w + k ≤ s.length + 1) :
    ∀ c ∈ windowCands s k w j, c.offset ≤ s.length - 1 := by
  intro c hc
  unfold windowCands at hc
  simp only [List.mem_flatMap, List.mem_range] at hc
  rcases hc with ⟨t, ht, hc⟩
  unfold candidates at hc
  rcases List.mem_cons.mp hc with h1 | h1
  · rw [h1]; simp; omega
  · rcases List.mem_cons.mp h1 with h2 | h2
    · rw [h2]; simp; omega
    · exact absurd h2 (by simp)

/-- Mirrored keys hash identically. -/
theorem mirrorRec_key (L : Nat) (r : MinRec) : (mirrorRec L r).key = r.key := rfl

/-- The hash minimum of the window starting at kmer `j` is attained by a
unique candidate record. -/
def uniqueMinAt (s : List Base) (k w j : Nat) : Prop :=
  ∀ c1 ∈ windowCands s k w j, ∀ c2 ∈ windowCands s k w j,
    (∀ d ∈ windowCands s k w j, wang_hash_64 c1.key ≤ wang_hash_64 d.key) →
    wang_hash_64 c2.key = wang_hash_64 c1.key → c2 = c1

instance (s : List Base) (k w j : Nat) : Decidable (uniqueMinAt s k w j) := by
  unfold uniqueMinAt
  infer_instance

/-- A valid window is nonempty. -/
theorem windowCands_ne_nil (s : List Base) (k w j : Nat) (hw : 1 ≤ w) :
    windowCands s k w j ≠ [] := by
  unfold windowCands
  intro hcontra
  have h0 : (⟨packKmer (kmerAt s k j), j, false⟩ : MinRec) ∈
      (List.range w).flatMap (fun t => candidates s k (j + t)) := by
    rw [List.mem_flatMap]
    exact ⟨0, by simp [List.mem_range]; omega, by simp [candidates]⟩
  rw [hcontra] at h0
  exact absurd h0 (by simp)

/-- Per-window transfer: with a unique window minimum, the winner of the
mirrored window of the reverse complement is the mirrored winner. -/
theorem windowWinner_rcSeq (s : List Base) (k w j' : Nat) (hk : 1 ≤ k)
    (hw : 1 ≤ w) (hwin : j' + w + k ≤ s.length + 1)
    (huniq : uniqueMinAt s k w (s.length + 1 - k - w - j')) :
    windowWinner (rcSeq s) k w j' =
      mirrorRec s.length (windowWinner s k w (s.length + 1 - k - w - j')) := by
  set j := s.length + 1 - k - w - j' with hj
  obtain ⟨humem, humin⟩ := windowWinner_mem_min s k w j (windowCands_ne_nil s k w j hw)
  set u := windowWinner s k w j with hu
  apply windowWinner_eq_of_unique
  · rw [mem_windowCands_rcSeq s k w j' hk hw hwin]
    exact ⟨u, humem, rfl⟩
  · intro c hc
    rw [mem_windowCands_rcSeq s k w j' hk hw hwin] at hc
    rcases hc with ⟨d, hd, hcd⟩
    rw [hcd, mirrorRec_key, mirrorRec_key]
    exact humin d hd
  · intro c hc hkey
    rw [mem_windowCands_rcSeq s k w j' hk hw hwin] at hc
    rcases hc with ⟨d, hd, hcd⟩
    rw [hcd]
    have hdu : d = u := by
      apply huniq u humem d hd humin
      rw [hcd, mirrorRec_key] at hkey
      rw [hkey, mirrorRec_key]
    rw [hdu]

/-- Mapping a range through a mirrored index reverses the mapped range. -/
theorem map_range_reverse {β : Type} (G : Nat → β) (n : Nat) :
    (List.range n).map (fun j => G (n - 1 - j)) = ((List.range n).map G).reverse := by
  conv_rhs => rw [← List.map_reverse, List.range_eq_range', List.reverse_range',
    List.map_map]
  apply List.map_congr_left
  intro a _
  show G (n - 1 - a) = G (0 + n - 1 - a)
  congr 1
  omega

/-- Appending one element to a run-collapsed list. -/
theorem dedupConsec_append_singleton [DecidableEq α] :
    ∀ (xs : List α) (a : α),
    dedupConsec (xs ++ [a]) =
      match xs.getLast? with
      | none => [a]
      | some b => if b = a then dedupConsec xs else dedupConsec xs ++ [a]
  | [], a => rfl
  | [b], a => by by_cases h : b = a <;> simp [dedupConsec, h]
  | b :: c :: xs, a => by
    have IH := dedupConsec_append_singleton (c :: xs) a
    cases hq : (c :: xs).getLast? with
    | none => simp at hq
    | some x =>
      rw [hq] at IH
      show dedupConsec (b :: c :: (xs ++ [a])) = _
      rw [show (b :: c :: xs).getLast? = some x from by
        rw [List.getLast?_cons_cons]; exact hq]
      by_cases hbc : b = c <;> by_cases hxa : x = a <;>
        simp only [dedupConsec, hbc, hxa, if_true, if_false] <;>
        simp only [show dedupConsec (c :: (xs ++ [a])) = _ from IH, hxa,
          if_true, if_false] <;>
        simp [dedupConsec, hbc, hxa]

/-- Collapsing runs commutes with reversal. -/
theorem dedupConsec_reverse [DecidableEq α] :
    ∀ l : List α, dedupConsec l.reverse = (dedupConsec l).reverse
  | [] => rfl
  | [_] => rfl
  | a :: b :: rest => by
    have IH := dedupConsec_reverse (b :: rest)
    rw [show (a :: b :: rest).reverse = (b :: rest).reverse ++ [a] from by
      simp]
    rw [dedupConsec_append_singleton]
    rw [show ((b :: rest).reverse).getLast? = some b from by
      rw [List.getLast?_reverse]; rfl]
    show (if b = a then dedupConsec (b :: rest).reverse
      else dedupConsec (b :: rest).reverse ++ [a]) =
      (dedupConsec (a :: b :: rest)).reverse
    by_cases hba : b = a
    · rw [if_pos hba, IH]
      show _ = (dedupConsec (a :: b :: rest)).reverse
      rw [show dedupConsec (a :: b :: rest) = dedupConsec (b :: rest) from by
        simp [dedupConsec, hba.symm]]
    · rw [if_neg hba, IH]
      show _ = (dedupConsec (a :: b :: rest)).reverse
      rw [show dedupConsec (a :: b :: rest) = a :: dedupConsec (b :: rest) from by
        have : ¬ a = b := fun h => hba h.symm
        simp [dedupConsec, this]]
      simp

/-- Collapsing runs commutes with an injective map. -/
theorem dedupConsec_map_of_inj [DecidableEq α] [DecidableEq β] (f : α → β) :
    ∀ l : List α, (∀ x ∈ l, ∀ y ∈ l, f x = f y → x = y) →
    dedupConsec (l.map f) = (dedupConsec l).map f
  | [], _ => rfl
  | [_], _ => rfl
  | a :: b :: rest, hinj => by
    have IH := dedupConsec_map_of_inj f (b :: rest)
      (fun x hx y hy h => hinj x (List.mem_cons_of_mem a hx)
        y (List.mem_cons_of_mem a hy) h)
    simp only [List.map_cons] at IH
    by_cases hab : a = b
    · have hfab : f a = f b := by rw [hab]
      show dedupConsec (f a :: f b :: rest.map f) = _
      rw [show dedupConsec (f a :: f b :: rest.map f) =
          dedupConsec (f b :: rest.map f) from by simp [dedupConsec, hfab]]
      rw [show dedupConsec (a :: b :: rest) = dedupConsec (b :: rest) from by
        simp [dedupConsec, hab]]
      exact IH
    · have hfab : ¬ f a = f b := fun h =>
        hab (hinj a (List.mem_cons_self a (b :: rest))
          b (List.mem_cons_of_mem a (List.mem_cons_self b rest)) h)
      show dedupConsec (f a :: f b :: rest.map f) = _
      rw [show dedupConsec (f a :: f b :: rest.map f) =
          f a :: dedupConsec (f b :: rest.map f) from by simp [dedupConsec, hfab]]
      rw [show dedupConsec (a :: b :: rest) = a :: dedupConsec (b :: rest) from by
        simp [dedupConsec, hab]]
      rw [IH]
      rfl

/-- Window winners carry offsets inside the sequence. -/
theorem windowWinner_offset_le (s : List Base) (k w j : Nat) (hk : 1 ≤ k)
    (hw : 1 ≤ w) (hwin : j + w + k ≤ s.length + 1) :
    (windowWinner s k w j).offset ≤ s.length - 1 := by
  obtain ⟨hmem, _⟩ := windowWinner_mem_min s k w j (windowCands_ne_nil s k w j hw)
  exact windowCands_offset_le s k w j hk hwin _ hmem

/-- **C8 (amended).** If every full window has a unique hash-minimal
candidate, then the minimizers of the reverse complement are exactly the
minimizers of the sequence with offsets mapped to `L - 1 - offset` and
orientations flipped, in reverse order (hence the same multiset of
canonical keys).  (Modelled from the spec; the counterexample `AAAA`
shows the uniqueness hypothesis is necessary.) -/
theorem c8_mirror_symmetry (s : List Base) (k w : Nat) (hk : 1 ≤ k) (hw : 1 ≤ w)
    (huniq : ∀ j, j < s.length + 2 - k - w → uniqueMinAt s k w j) :
    minimizersModel (rcSeq s) k w =
      ((minimizersModel s k w).map (mirrorRec s.length)).reverse := by
  set N := s.length + 2 - k - w with hN
  have hwinners : (List.range N).map (windowWinner (rcSeq s) k w) =
      (((List.range N).map (windowWinner s k w)).map (mirrorRec s.length)).reverse := by
    calc (List.range N).map (windowWinner (rcSeq s) k w)
        = (List.range N).map (fun j' => mirrorRec s.length
            (windowWinner s k w (N - 1 - j'))) := by
          apply List.map_congr_left
          intro j' hj'
          rw [List.mem_range] at hj'
          have hN1 : N - 1 - j' = s.length + 1 - k - w - j' := by omega
          rw [hN1]
          exact windowWinner_rcSeq s k w j' hk hw (by omega) (huniq _ (by omega))
      _ = ((List.range N).map (fun j' => mirrorRec s.length
            (windowWinner s k w j'))).reverse :=
          map_range_reverse (fun j => mirrorRec s.length (windowWinner s k w j)) N
      _ = (((List.range N).map (windowWinner s k w)).map (mirrorRec s.length)).reverse := by
          simp [List.map_map, Function.comp]
  have hInj : ∀ x ∈ (List.range N).map (windowWinner s k w),
      ∀ y ∈ (List.range N).map (windowWinner s k w),
      mirrorRec s.length x = mirrorRec s.length y → x = y := by
    intro x hx y hy hxy
    obtain ⟨jx, hjx, hxw⟩ := List.mem_map.mp hx
    obtain ⟨jy, hjy, hyw⟩ := List.mem_map.mp hy
    rw [List.mem_range] at hjx hjy
    have hox : x.offset ≤ s.length - 1 := by
      rw [← hxw]
      exact windowWinner_offset_le s k w jx hk hw (by omega)
    have hoy : y.offset ≤ s.length - 1 := by
      rw [← hyw]
      exact windowWinner_offset_le s k w jy hk hw (by omega)
    rcases x with ⟨xk, xo, xr⟩
    rcases y with ⟨yk, yo, yr⟩
    simp only [mirrorRec, MinRec.mk.injEq] at hxy ⊢
    simp only at hox hoy
    obtain ⟨h1, h2, h3⟩ := hxy
    refine ⟨h1, by omega, ?_⟩
    cases xr <;> cases yr <;> simp at h3 ⊢
  show dedupConsec ((List.range ((rcSeq s).length + 2 - k - w)).map
      (windowWinner (rcSeq s) k w)) =
    ((dedupConsec ((List.range N).map (windowWinner s k w))).map
      (mirrorRec s.length)).reverse
  rw [rcSeq_length, ← hN, hwinners, dedupConsec_reverse,
    dedupConsec_map_of_inj (mirrorRec s.length) _ hInj]

/-- Witness for `c8_mirror_symmetry` on the source test string
`CGAATACAATACT` with `k = 3`, `w = 2`: every window there has a unique
minimum, and the enumeration of the reverse complement mirrors the
forward enumeration. -/
theorem c8_mirror_symmetry_witness :
    minimizersModel (rcSeq testStr) 3 2 =
      ((minimizersModel testStr 3 2).map (mirrorRec testStr.length)).reverse :=
  c8_mirror_symmetry testStr 3 2 (by decide) (by decide)
    (by decide)

/-- `wccDfs` on an empty stack succeeds immediately. -/
theorem wccDfs_nil (g : HandleGraph) (fuel : Nat) (found comp : List Nat) :
    wccDfs g fuel [] found comp = some (found, comp) := by
  cases fuel <;> rfl

/-- `wccDfs` unfolding for a nonempty stack with fuel available. -/
theorem wccDfs_succ (g : HandleGraph) (fuel : Nat) (h : Handle)
    (rest : List Handle) (found comp : List Nat) :
    wccDfs g (fuel + 1) (h :: rest) found comp =
      if h.id ∈ found then wccDfs g fuel rest found comp
      else wccDfs g fuel ((successors g h ++ predecessors g h).reverse ++ rest)
        (h.id :: found) (comp ++ [h.id]) := rfl

/-- Successful DFS runs extend the component and push the same ids onto
the front of the visited list. -/
theorem wccDfs_shape (g : HandleGraph) : ∀ (fuel : Nat) (stack : List Handle)
    (found comp found' comp' : List Nat),
    wccDfs g fuel stack found comp = some (found', comp') →
    ∃ δ, comp' = comp ++ δ ∧ found' = δ.reverse ++ found
  | fuel, [], found, comp, found', comp' => by
    rw [wccDfs_nil]
    intro h
    obtain ⟨h1, h2⟩ := Prod.mk.injEq _ _ _ _ ▸ Option.some.injEq _ _ ▸ h
    exact ⟨[], by simp [← h2, ← h1]⟩
  | 0, h :: rest, _, _, _, _ => by
    intro hcontra
    exact absurd hcontra (by simp [wccDfs])
  | fuel + 1, h :: rest, found, comp, found', comp' => by
    rw [wccDfs_succ]
    by_cases hmem : h.id ∈ found
    · rw [if_pos hmem]
      exact wccDfs_shape g fuel rest found comp found' comp'
    · rw [if_neg hmem]
      intro hres
      obtain ⟨δ, hδ1, hδ2⟩ := wccDfs_shape g fuel _ _ _ _ _ hres
      refine ⟨h.id :: δ, ?_, ?_⟩
      · rw [hδ1, List.append_assoc]
        rfl
      · rw [hδ2, List.reverse_cons, List.append_assoc]
        rfl

/-- Every id on the stack of a successful DFS run ends up visited. -/
theorem wccDfs_stack_found (g : HandleGraph) : ∀ (fuel : Nat)
    (stack : List Handle) (found comp found' comp' : List Nat),
    wccDfs g fuel stack found comp = some (found', comp') →
    ∀ h ∈ stack, h.id ∈ found'
  | fuel, [], _, _, _, _ => by
    intro _ h hmem
    exact absurd hmem (by simp)
  | 0, h :: rest, _, _, _, _ => by
    intro hcontra
    exact absurd hcontra (by simp [wccDfs])
  | fuel + 1, h :: rest, found, comp, found', comp' => by
    rw [wccDfs_succ]
    by_cases hmem : h.id ∈ found
    · rw [if_pos hmem]
      intro hres h0 h0mem
      obtain ⟨δ, _, hδ2⟩ := wccDfs_shape g fuel _ _ _ _ _ hres
      rcases List.mem_cons.mp h0mem with h1 | h1
      · rw [h1, hδ2]
        exact List.mem_append_right _ hmem
      · exact wccDfs_stack_found g fuel rest found comp found' comp' hres h0 h1
    · rw [if_neg hmem]
      intro hres h0 h0mem
      obtain ⟨δ, _, hδ2⟩ := wccDfs_shape g fuel _ _ _ _ _ hres
      rcases List.mem_cons.mp h0mem with h1 | h1
      · rw [h1, hδ2]
        exact List.mem_append_right _ (List.mem_cons_self _ _)
      · exact wccDfs_stack_found g fuel _ _ _ found' comp' hres h0
          (List.mem_append_right _ h1)

/-- Two handles with the same id are equal or opposite orientations. -/
theorem Handle.eq_or_eq_flip (a b : Handle) (h : a.id = b.id) :
    a = b ∨ a = b.flip := by
  cases a with
  | mk ia ra =>
    cases b with
    | mk ib rb =>
      simp only [Handle.id] at h
      subst h
      cases ra <;> cases rb <;> simp [Handle.flip]

/-- Ids of enumerated successors are node ids of the graph. -/
theorem successors_ids (g : HandleGraph) (h : Handle) :
    ∀ x ∈ successors g h, x.id ∈ g.nodes := by
  intro x hx
  unfold successors at hx
  rcases List.mem_append.mp hx with h1 | h1
  · rcases List.mem_map.mp h1 with ⟨e, he, hex⟩
    rw [← hex]
    exact (g.edges_valid e (List.mem_filter.mp he).1).2
  · rcases List.mem_map.mp h1 with ⟨e, he, hex⟩
    rw [← hex]
    exact (g.edges_valid e (List.mem_filter.mp he).1).1

/-- Ids of enumerated predecessors are node ids of the graph. -/
theorem predecessors_ids (g : HandleGraph) (h : Handle) :
    ∀ x ∈ predecessors g h, x.id ∈ g.nodes := by
  intro x hx
  unfold predecessors at hx
  rcases List.mem_append.mp hx with h1 | h1
  · rcases List.mem_map.mp h1 with ⟨e, he, hex⟩
    rw [← hex]
    exact (g.edges_valid e (List.mem_filter.mp he).1).1
  · rcases List.mem_map.mp h1 with ⟨e, he, hex⟩
    rw [← hex]
    exact (g.edges_valid e (List.mem_filter.mp he).1).2

/-- From any orientation of a node, one traversal step reaches every
adjacent id. -/
theorem adjacent_mem_neighbors (g : HandleGraph) (h : Handle) (u : Nat)
    (hadj : adjacentIds g h.id u) :
    ∃ h2 ∈ successors g h ++ predecessors g h, h2.id = u := by
  rcases hadj with ⟨e, he, ⟨h1, h2⟩ | ⟨h1, h2⟩⟩
  · rcases Handle.eq_or_eq_flip e.1 h h1 with ho | ho
    · refine ⟨e.2, List.mem_append_left _ ?_, h2⟩
      unfold successors
      exact List.mem_append_left _
        (List.mem_map.mpr ⟨e, List.mem_filter.mpr ⟨he, by simp [ho]⟩, rfl⟩)
    · refine ⟨e.2.flip, List.mem_append_right _ ?_, h2⟩
      unfold predecessors
      exact List.mem_append_right _
        (List.mem_map.mpr ⟨e, List.mem_filter.mpr ⟨he, by simp [ho]⟩, rfl⟩)
  · rcases Handle.eq_or_eq_flip e.2 h h1 with ho | ho
    · refine ⟨e.1, List.mem_append_right _ ?_, h2⟩
      unfold predecessors
      exact List.mem_append_left _
        (List.mem_map.mpr ⟨e, List.mem_filter.mpr ⟨he, by simp [ho]⟩, rfl⟩)
    · refine ⟨e.1.flip, List.mem_append_left _ ?_, h2⟩
      unfold successors
      exact List.mem_append_right _
        (List.mem_map.mpr ⟨e, List.mem_filter.mpr ⟨he, by simp [ho]⟩, rfl⟩)

/-- Every id newly added to the component by a successful DFS run has all
its adjacent ids visited by the end of the run. -/
theorem wccDfs_closure (g : HandleGraph) : ∀ (fuel : Nat)
    (stack : List Handle) (found comp found' comp' : List Nat),
    wccDfs g fuel stack found comp = some (found', comp') →
    ∀ v ∈ comp', v ∈ comp ∨ (∀ u, adjacentIds g v u → u ∈ found')
  | fuel, [], found, comp, found', comp' => by
    rw [wccDfs_nil]
    intro h v hv
    obtain ⟨h1, h2⟩ := Prod.mk.injEq _ _ _ _ ▸ Option.some.injEq _ _ ▸ h
    rw [← h2] at hv
    exact Or.inl hv
  | 0, h :: rest, _, _, _, _ => by
    intro hcontra
    exact absurd hcontra (by simp [wccDfs])
  | fuel + 1, h :: rest, found, comp, found', comp' => by
    rw [wccDfs_succ]
    by_cases hmem : h.id ∈ found
    · rw [if_pos hmem]
      exact wccDfs_closure g fuel rest found comp found' comp'
    · rw [if_neg hmem]
      intro hres v hv
      rcases wccDfs_closure g fuel _ _ _ _ _ hres v hv with h1 | h1
      · rcases List.mem_append.mp h1 with h2 | h2
        · exact Or.inl h2
        · refine Or.inr ?_
          intro u hadj
          have hvh : v = h.id := by simpa using h2
          rw [hvh] at hadj
          obtain ⟨h2b, h2mem, h2id⟩ := adjacent_mem_neighbors g h u hadj
          rw [← h2id]
          exact wccDfs_stack_found g fuel _ _ _ _ _ hres h2b
            (List.mem_append_left _ (List.mem_reverse.mpr h2mem))
      · exact Or.inr h1

/-- A successful DFS run keeps the visited list duplicate-free and inside
the node set. -/
theorem wccDfs_found_wf (g : HandleGraph) : ∀ (fuel : Nat)
    (stack : List Handle) (found comp found' comp' : List Nat),
    wccDfs g fuel stack found comp = some (found', comp') →
    (∀ h ∈ stack, h.id ∈ g.nodes) → found.Nodup →
    (∀ x ∈ found, x ∈ g.nodes) →
    found'.Nodup ∧ (∀ x ∈ found', x ∈ g.nodes)
  | fuel, [], found, comp, found', comp' => by
    rw [wccDfs_nil]
    intro h _ hnd hdom
    obtain ⟨h1, h2⟩ := Prod.mk.injEq _ _ _ _ ▸ Option.some.injEq _ _ ▸ h
    rw [← h1]
    exact ⟨hnd, hdom⟩
  | 0, h :: rest, _, _, _, _ => by
    intro hcontra
    exact absurd hcontra (by simp [wccDfs])
  | fuel + 1, h :: rest, found, comp, found', comp' => by
    rw [wccDfs_succ]
    by_cases hmem : h.id ∈ found
    · rw [if_pos hmem]
      intro hres hstack hnd hdom
      exact wccDfs_found_wf g fuel rest found comp found' comp' hres
        (fun x hx => hstack x (List.mem_cons_of_mem h hx)) hnd hdom
    · rw [if_neg hmem]
      intro hres hstack hnd hdom
      refine wccDfs_found_wf g fuel _ _ _ found' comp' hres ?_
        (List.nodup_cons.mpr ⟨hmem, hnd⟩) ?_
      · intro x hx
        rcases List.mem_append.mp hx with h1 | h1
        · rcases List.mem_append.mp (List.mem_reverse.mp h1) with h2 | h2
          · exact successors_ids g h x h2
          · exact predecessors_ids g h x h2
        · exact hstack x (List.mem_cons_of_mem h h1)
      · intro x hx
        rcases List.mem_cons.mp hx with h1 | h1
        · rw [h1]
          exact hstack h (List.mem_cons_self h rest)
        · exact hdom x h1

/-- Strengthening a membership filter cannot enlarge it. -/
theorem filter_not_mem_cons_le (a : Nat) (found : List Nat) :
    ∀ l : List Nat,
    (l.filter (fun x => decide (x ∉ a :: found))).length ≤
      (l.filter (fun x => decide (x ∉ found))).length
  | [] => Nat.le_refl _
  | x :: xs => by
    by_cases hx : x ∈ found
    · have h1 : (decide (x ∉ a :: found)) = false := by simp [hx]
      have h2 : (decide (x ∉ found)) = false := by simp [hx]
      simp only [List.filter_cons, h1, h2, Bool.false_eq_true, if_false]
      exact filter_not_mem_cons_le a found xs
    · by_cases hxa : x = a
      · have h1 : (decide (x ∉ a :: found)) = false := by simp [hxa]
        simp only [List.filter_cons, h1, Bool.false_eq_true, if_false]
        by_cases h2 : (decide (x ∉ found)) = true
        · simp only [h2, if_true, List.length_cons]
          exact Nat.le_succ_of_le (filter_not_mem_cons_le a found xs)
        · simp only [h2, if_false]
          exact filter_not_mem_cons_le a found xs
      · have heq : (decide (x ∉ a :: found)) = (decide (x ∉ found)) := by
          simp [List.mem_cons, hxa, hx]
        simp only [List.filter_cons, heq]
        by_cases h2 : (decide (x ∉ found)) = true
        · simp only [h2, if_true, List.length_cons]
          exact Nat.succ_le_succ (filter_not_mem_cons_le a found xs)
        · simp only [h2, if_false]
          exact filter_not_mem_cons_le a found xs

/-- Visiting a present, unvisited id strictly shrinks the unvisited
filter. -/
theorem filter_not_mem_cons_lt (a : Nat) (found : List Nat)
    (haf : a ∉ found) : ∀ l : List Nat, a ∈ l →
    (l.filter (fun x => decide (x ∉ a :: found))).length + 1 ≤
      (l.filter (fun x => decide (x ∉ found))).length
  | [], hal => absurd hal (by simp)
  | x :: xs, hal => by
    by_cases hxa : x = a
    · have h1 : (decide (x ∉ a :: found)) = false := by simp [hxa]
      have h2 : (decide (x ∉ found)) = true := by simp [hxa, haf]
      simp only [List.filter_cons, h1, h2, Bool.false_eq_true, if_false, if_true,
        List.length_cons]
      exact Nat.succ_le_succ (filter_not_mem_cons_le a found xs)
    · have hal' : a ∈ xs := by
        rcases List.mem_cons.mp hal with h1 | h1
        · exact absurd h1.symm hxa
        · exact h1
      have heq : (decide (x ∉ a :: found)) = (decide (x ∉ found)) := by
        by_cases hx : x ∈ found <;> simp [List.mem_cons, hxa, hx]
      simp only [List.filter_cons, heq]
      by_cases h2 : (decide (x ∉ found)) = true
      · simp only [h2, if_true, List.length_cons]
        exact Nat.succ_le_succ (filter_not_mem_cons_lt a found haf xs hal')
      · simp only [h2, if_false]
        exact filter_not_mem_cons_lt a found haf xs hal'

/-- The successor list is bounded by twice the edge count. -/
theorem successors_length_le (g : HandleGraph) (h : Handle) :
    (successors g h).length ≤ 2 * g.edges.length := by
  unfold successors
  rw [List.length_append, List.length_map, List.length_map]
  have h1 := List.length_filter_le (fun e => decide (e.1 = h)) g.edges
  have h2 := List.length_filter_le (fun e => decide (e.2 = h.flip)) g.edges
  omega

/-- The predecessor list is bounded by twice the edge count. -/
theorem predecessors_length_le (g : HandleGraph) (h : Handle) :
    (predecessors g h).length ≤ 2 * g.edges.length := by
  unfold predecessors
  rw [List.length_append, List.length_map, List.length_map]
  have h1 := List.length_filter_le (fun e => decide (e.2 = h)) g.edges
  have h2 := List.length_filter_le (fun e => decide (e.1 = h.flip)) g.edges
  omega

/-- Fuel sufficiency for the DFS: with one unit per stack entry plus a
budget per unvisited node, the run completes. -/
theorem wccDfs_isSome (g : HandleGraph) : ∀ (fuel : Nat) (stack : List Handle)
    (found comp : List Nat),
    (∀ h ∈ stack, h.id ∈ g.nodes) →
    stack.length +
      (g.nodes.filter (fun x => decide (x ∉ found))).length *
        (4 * g.edges.length + 1) ≤ fuel →
    (wccDfs g fuel stack found comp).isSome = true
  | fuel, [], found, comp => by
    intro _ _
    rw [wccDfs_nil]
    rfl
  | 0, h :: rest, found, comp => by
    intro _ hfuel
    simp only [List.length_cons] at hfuel
    omega
  | fuel + 1, h :: rest, found, comp => by
    intro hstack hfuel
    rw [wccDfs_succ]
    by_cases hmem : h.id ∈ found
    · rw [if_pos hmem]
      refine wccDfs_isSome g fuel rest found comp
        (fun x hx => hstack x (List.mem_cons_of_mem h hx)) ?_
      simp only [List.length_cons] at hfuel
      omega
    · rw [if_neg hmem]
      refine wccDfs_isSome g fuel _ _ _ ?_ ?_
      · intro x hx
        rcases List.mem_append.mp hx with h1 | h1
        · rcases List.mem_append.mp (List.mem_reverse.mp h1) with h2 | h2
          · exact successors_ids g h x h2
          · exact predecessors_ids g h x h2
        · exact hstack x (List.mem_cons_of_mem h h1)
      · have hs := successors_length_le g h
        have hp := predecessors_length_le g h
        have hdec := filter_not_mem_cons_lt h.id found hmem g.nodes
          (hstack h (List.mem_cons_self h rest))
        set u' := (g.nodes.filter (fun x => decide (x ∉ h.id :: found))).length
          with hu'
        set u := (g.nodes.filter (fun x => decide (x ∉ found))).length with hu
        have hmul : u' * (4 * g.edges.length + 1) + (4 * g.edges.length + 1) ≤
            u * (4 * g.edges.length + 1) := by
          have h1 : u' + 1 ≤ u := hdec
          calc u' * (4 * g.edges.length + 1) + (4 * g.edges.length + 1)
              = (u' + 1) * (4 * g.edges.length + 1) := by ring
            _ ≤ u * (4 * g.edges.length + 1) :=
                Nat.mul_le_mul_right _ h1
        simp only [List.length_append, List.length_reverse, List.length_cons] at hfuel ⊢
        omega

/-- `weakly_connected_components` never runs out of fuel. -/
theorem wccOuter_isSome (g : HandleGraph) : ∀ (vs found : List Nat)
    (comps : List (List Nat)), (∀ v ∈ vs, v ∈ g.nodes) →
    (wccOuter g vs found comps).isSome = true
  | [], _, _ => fun _ => rfl
  | v :: vs, found, comps => by
    intro hvs
    show (wccOuter g (v :: vs) found comps).isSome = true
    rw [wccOuter]
    by_cases hmem : v ∈ found
    · rw [if_pos hmem]
      exact wccOuter_isSome g vs found comps
        (fun x hx => hvs x (List.mem_cons_of_mem v hx))
    · rw [if_neg hmem]
      have hsome : (wccDfs g (wccFuel g) [⟨v, false⟩] found []).isSome = true := by
        refine wccDfs_isSome g (wccFuel g) [⟨v, false⟩] found [] ?_ ?_
        · intro h hh
          rcases List.mem_cons.mp hh with h1 | h1
          · rw [h1]
            exact hvs v (List.mem_cons_self v vs)
          · exact absurd h1 (by simp)
        · have hle : (g.nodes.filter (fun x => decide (x ∉ found))).length ≤
              g.nodes.length := List.length_filter_le _ _
          have hmul : (g.nodes.filter (fun x => decide (x ∉ found))).length *
              (4 * g.edges.length + 1) ≤
              g.nodes.length * (4 * g.edges.length + 1) :=
            Nat.mul_le_mul_right _ hle
          unfold wccFuel
          simp only [List.length_cons, List.length_nil]
          omega
      rcases hres : wccDfs g (wccFuel g) [⟨v, false⟩] found [] with _ | ⟨found1, comp⟩
      · rw [hres] at hsome
        exact absurd hsome (by simp)
      · exact wccOuter_isSome g vs found1 (comps ++ [comp])
          (fun x hx => hvs x (List.mem_cons_of_mem v hx))

/-- Invariant of the outer component loop: a successful run returns a
duplicate-free family inside the node set, covering the pending ids, in
which every component's adjacency stays within the components found so
far. -/
theorem wccOuter_spec (g : HandleGraph) : ∀ (vs found : List Nat)
    (comps result : List (List Nat)),
    wccOuter g vs found comps = some result →
    (∀ v ∈ vs, v ∈ g.nodes) →
    found.Nodup →
    (∀ x ∈ found, x ∈ g.nodes) →
    List.Perm found comps.flatten →
    (∀ i (hi : i < comps.length), ∀ v ∈ comps[i], ∀ u, adjacentIds g v u →
      u ∈ (comps.take (i + 1)).flatten) →
    result.flatten.Nodup ∧
    (∀ x ∈ result.flatten, x ∈ g.nodes) ∧
    (∀ x, (x ∈ found ∨ x ∈ vs) → x ∈ result.flatten) ∧
    (∀ i (hi : i < result.length), ∀ v ∈ result[i], ∀ u, adjacentIds g v u →
      u ∈ (result.take (i + 1)).flatten)
  | [], found, comps, result => by
    intro hres hvs hnd hdom hperm hclos
    have hresult : comps = result := by
      rw [wccOuter] at hres
      exact Option.some.injEq _ _ ▸ hres
    subst hresult
    refine ⟨hperm.nodup hnd, ?_, ?_, hclos⟩
    · intro x hx
      exact hdom x (hperm.mem_iff.mpr hx)
    · intro x hx
      rcases hx with hx | hx
      · exact hperm.mem_iff.mp hx
      · exact absurd hx (by simp)
  | v :: vs, found, comps, result => by
    intro hres hvs hnd hdom hperm hclos
    rw [wccOuter] at hres
    by_cases hmem : v ∈ found
    · rw [if_pos hmem] at hres
      obtain ⟨ca, cb, cc, cd⟩ := wccOuter_spec g vs found comps result hres
        (fun x hx => hvs x (List.mem_cons_of_mem v hx)) hnd hdom hperm hclos
      refine ⟨ca, cb, ?_, cd⟩
      intro x hx
      rcases hx with hx | hx
      · exact cc x (Or.inl hx)
      · rcases List.mem_cons.mp hx with h1 | h1
        · rw [h1]
          exact cc v (Or.inl hmem)
        · exact cc x (Or.inr h1)
    · rw [if_neg hmem] at hres
      rcases hDfs : wccDfs g (wccFuel g) [⟨v, false⟩] found [] with _ | ⟨found1, δ⟩
      · rw [hDfs] at hres
        exact absurd hres (by simp)
      · rw [hDfs] at hres
        obtain ⟨δ', hδ'1, hδ'2⟩ := wccDfs_shape g _ _ _ _ _ _ hDfs
        have hδeq : δ' = δ := by simpa using hδ'1.symm
        rw [hδeq] at hδ'2
        have hstack0 : ∀ h ∈ [(⟨v, false⟩ : Handle)], h.id ∈ g.nodes := by
          intro h hh
          rcases List.mem_cons.mp hh with h1 | h1
          · rw [h1]
            exact hvs v (List.mem_cons_self v vs)
          · exact absurd h1 (by simp)
        obtain ⟨hnd1, hdom1⟩ := wccDfs_found_wf g _ _ _ _ _ _ hDfs hstack0 hnd hdom
        have hflatten : (comps ++ [δ]).flatten = comps.flatten ++ δ := by simp
        have hperm1 : List.Perm found1 (comps ++ [δ]).flatten := by
          rw [hδ'2, hflatten]
          have hp1 : List.Perm (δ.reverse ++ found) (δ ++ found) :=
            (List.reverse_perm δ).append_right found
          have hp2 : List.Perm (δ ++ found) (found ++ δ) := List.perm_append_comm
          have hp3 : List.Perm (found ++ δ) (comps.flatten ++ δ) :=
            hperm.append_right δ
          exact hp1.trans (hp2.trans hp3)
        have hclos1 : ∀ i (hi : i < (comps ++ [δ]).length),
            ∀ w ∈ (comps ++ [δ])[i], ∀ u, adjacentIds g w u →
            u ∈ ((comps ++ [δ]).take (i + 1)).flatten := by
          intro i hi w hw u hadj
          by_cases hi2 : i < comps.length
          · rw [List.getElem_append_left hi2] at hw
            rw [List.take_append_of_le_length (by omega)]
            exact hclos i hi2 w hw u hadj
          · have hieq : i = comps.length := by
              simp only [List.length_append, List.length_cons, List.length_nil] at hi
              omega
            have hwδ : w ∈ δ := by
              rw [List.getElem_append_right (by omega)] at hw
              simpa [hieq] using hw
            rcases wccDfs_closure g _ _ _ _ _ _ hDfs w hwδ with h1 | h1
            · exact absurd h1 (by simp)
            · rw [List.take_of_length_le (by
                simp only [List.length_append, List.length_cons, List.length_nil]
                omega)]
              exact hperm1.mem_iff.mp (h1 u hadj)
        obtain ⟨ca, cb, cc, cd⟩ := wccOuter_spec g vs found1 (comps ++ [δ]) result
          hres (fun x hx => hvs x (List.mem_cons_of_mem v hx)) hnd1 hdom1
          hperm1 hclos1
        refine ⟨ca, cb, ?_, cd⟩
        intro x hx
        rcases hx with hx | hx
        · refine cc x (Or.inl ?_)
          rw [hδ'2]
          exact List.mem_append_right _ hx
        · rcases List.mem_cons.mp hx with h1 | h1
          · refine cc x (Or.inl ?_)
            rw [h1]
            exact wccDfs_stack_found g _ _ _ _ _ _ hDfs ⟨v, false⟩
              (List.mem_cons_self _ _)
          · exact cc x (Or.inr h1)

/-- Adjacency of ids is symmetric. -/
theorem adjacentIds_symm (g : HandleGraph) (v u : Nat)
    (h : adjacentIds g v u) : adjacentIds g u v := by
  rcases h with ⟨e, he, h1 | h1⟩
  · exact ⟨e, he, Or.inr ⟨h1.2, h1.1⟩⟩
  · exact ⟨e, he, Or.inl ⟨h1.2, h1.1⟩⟩

/-- An element of the flattened prefix lies in a component with a small
index. -/
theorem mem_flatten_take {α : Type} (l : List (List α)) (m : Nat) (x : α)
    (hx : x ∈ (l.take m).flatten) :
    ∃ j, ∃ hj : j < l.length, j < m ∧ x ∈ l[j] := by
  rw [List.mem_flatten] at hx
  rcases hx with ⟨c, hc, hxc⟩
  rw [List.mem_iff_getElem] at hc
  rcases hc with ⟨j, hj, hcj⟩
  have hjl : j < l.length := by
    rw [List.length_take] at hj
    omega
  have hjm : j < m := by
    rw [List.length_take] at hj
    omega
  refine ⟨j, hjl, hjm, ?_⟩
  have hg : (l.take m)[j] = l[j] := by simp
  rw [hg] at hcj
  rw [hcj]
  exact hxc

/-- In a family with a duplicate-free flattening, an element determines
its component index. -/
theorem flatten_nodup_eq_index {α : Type} : ∀ (l : List (List α)),
    l.flatten.Nodup → ∀ (i j : Nat) (hi : i < l.length) (hj : j < l.length)
    (x : α), x ∈ l.get ⟨i, hi⟩ → x ∈ l.get ⟨j, hj⟩ → i = j := by
  intro l
  induction l with
  | nil =>
    intro _ i j hi _ _ _ _
    exact absurd hi (by simp)
  | cons c rest ih =>
    intro hnd i j hi hj x hxi hxj
    have hnd' : (c ++ rest.flatten).Nodup := by
      simpa [List.flatten_cons] using hnd
    have hdisj : List.Disjoint c rest.flatten :=
      List.disjoint_of_nodup_append hnd'
    cases i with
    | zero =>
      cases j with
      | zero => rfl
      | succ j =>
        exfalso
        have hxc : x ∈ c := hxi
        have hxr : x ∈ rest.flatten := by
          rw [List.mem_flatten]
          exact ⟨rest.get ⟨j, by simpa using hj⟩, List.get_mem _ _ _, hxj⟩
        exact hdisj hxc hxr
    | succ i =>
      cases j with
      | zero =>
        exfalso
        have hxc : x ∈ c := hxj
        have hxr : x ∈ rest.flatten := by
          rw [List.mem_flatten]
          exact ⟨rest.get ⟨i, by simpa using hi⟩, List.get_mem _ _ _, hxi⟩
        exact hdisj hxc hxr
      | succ j =>
        have := ih hnd'.of_append_right i j (by simpa using hi) (by simpa using hj)
          x hxi hxj
        omega

/-- C9: weakly_connected_components returns a family of node-id lists in
which every node id of the graph occurs exactly once overall (the lists
partition the node set), and each list is closed under edges followed in
both orientations. -/
theorem c9_wcc_partition_closure (g : HandleGraph) :
    (weakly_connected_components g).flatten.Nodup ∧
    (∀ x, x ∈ (weakly_connected_components g).flatten ↔ x ∈ g.nodes) ∧
    (∀ c ∈ weakly_connected_components g, ∀ v ∈ c, ∀ u,
      adjacentIds g v u → u ∈ c) := by
  have hsome := wccOuter_isSome g g.nodes [] [] (fun v hv => hv)
  rcases hres : wccOuter g g.nodes [] [] with _ | result
  · rw [hres] at hsome
    exact absurd hsome (by simp)
  · have hwcc : weakly_connected_components g = result := by
      unfold weakly_connected_components
      rw [hres]
      rfl
    obtain ⟨ca, cb, cc, cd⟩ := wccOuter_spec g g.nodes [] [] result hres
      (fun v hv => hv) (by simp) (by simp) (List.Perm.refl _)
      (by intro i hi; simp at hi)
    rw [hwcc]
    refine ⟨ca, ?_, ?_⟩
    · intro x
      exact ⟨cb x, fun hx => cc x (Or.inr hx)⟩
    · intro c hc v hv u hadj
      rw [List.mem_iff_getElem] at hc
      rcases hc with ⟨i, hi, hci⟩
      have hvmem : v ∈ result[i] := by
        rw [hci]
        exact hv
      obtain ⟨jl, hjl, hjlm, hujl⟩ :=
        mem_flatten_take result (i + 1) u (cd i hi v hvmem u hadj)
      have hadj2 : adjacentIds g u v := adjacentIds_symm g v u hadj
      obtain ⟨jm, hjm, hjmm, hvjm⟩ :=
        mem_flatten_take result (jl + 1) v (cd jl hjl u hujl v hadj2)
      have h1 : jm = i := flatten_nodup_eq_index result ca jm i hjm hi v hvjm hvmem
      have h2 : jl = i := by omega
      rw [← hci]
      subst h2
      exact hujl
